import Mathlib

/-!
Verification of the pbzx payload extraction tool (payloadtool.py).

The embedding models bytes as natural numbers below 256 held in lists, the
underlying file handle as a list of bytes with a read position, and the
single-shot LZMA primitive as a parameter of type List Nat → Option (List Nat)
(none meaning the codec rejects the data).  Fallible operations return
Except PErr.  All loops are written with an explicit fuel argument so that the
definitions stay executable by kernel reduction; separate theorems show the
chosen fuel always suffices.  Side effects of the walker (files written,
symlinks created, listing output) are modelled as an event trace.
-/

/-- Errors, following the taxonomy of the design: struct.error and
UnicodeDecodeError raised while parsing are format errors, lzma.LZMAError is a
decompression error, the exception raised for a backward seek is an
unsupported-operation error, and the KeyError raised by a Python dict lookup
is kept separate. -/
inductive PErr where
  | formatError : PErr
  | decompressionError : PErr
  | unsupportedOperation : PErr
  | keyError : PErr
deriving DecidableEq, Repr

/-- Big-endian interpretation of a list of bytes, as struct.unpack does for
the ">Q", ">L", ">H" and ">B" fields. -/
def beNat (l : List Nat) : Nat := l.foldl (fun a b => a * 256 + b) 0

/-- Two's-complement signed interpretation of a 16-bit big-endian value,
as struct.unpack does for ">h" fields. -/
def toI16 (n : Nat) : Int := if n < 0x8000 then (n : Int) else (n : Int) - 0x10000

/-- A UTF-8 continuation byte. -/
def utf8Cont (b : Nat) : Prop := 0x80 ≤ b ∧ b < 0xC0

instance (b : Nat) : Decidable (utf8Cont b) := by
  unfold utf8Cont; infer_instance

/-- Fuelled strict UTF-8 decoder, modelling Python bytes.decode with the
default strict error handling: rejects stray continuation bytes, overlong
forms, surrogate code points, values above 0x10FFFF and truncated sequences.
Returns the decoded code points. -/
def utf8DecodeF : Nat → List Nat → Option (List Nat)
  | _, [] => some []
  | 0, _ :: _ => none
  | fuel+1, b :: rest =>
    if b < 0x80 then
      match utf8DecodeF fuel rest with
      | some cs => some (b :: cs)
      | none => none
    else if b < 0xC2 then none
    else if b < 0xE0 then
      match rest with
      | b1 :: rest1 =>
        if utf8Cont b1 then
          match utf8DecodeF fuel rest1 with
          | some cs => some (((b - 0xC0) * 64 + (b1 - 0x80)) :: cs)
          | none => none
        else none
      | [] => none
    else if b < 0xF0 then
      match rest with
      | b1 :: b2 :: rest2 =>
        if utf8Cont b1 ∧ utf8Cont b2 then
          if (b - 0xE0) * 4096 + (b1 - 0x80) * 64 + (b2 - 0x80) < 0x800 ∨
             (0xD800 ≤ (b - 0xE0) * 4096 + (b1 - 0x80) * 64 + (b2 - 0x80) ∧
              (b - 0xE0) * 4096 + (b1 - 0x80) * 64 + (b2 - 0x80) < 0xE000) then none
          else
            match utf8DecodeF fuel rest2 with
            | some cs => some (((b - 0xE0) * 4096 + (b1 - 0x80) * 64 + (b2 - 0x80)) :: cs)
            | none => none
        else none
      | _ => none
    else if b < 0xF5 then
      match rest with
      | b1 :: b2 :: b3 :: rest3 =>
        if utf8Cont b1 ∧ utf8Cont b2 ∧ utf8Cont b3 then
          if (b - 0xF0) * 262144 + (b1 - 0x80) * 4096 + (b2 - 0x80) * 64 + (b3 - 0x80) < 0x10000 ∨
             0x110000 ≤ (b - 0xF0) * 262144 + (b1 - 0x80) * 4096 + (b2 - 0x80) * 64 + (b3 - 0x80) then none
          else
            match utf8DecodeF fuel rest3 with
            | some cs => some (((b - 0xF0) * 262144 + (b1 - 0x80) * 4096 + (b2 - 0x80) * 64 + (b3 - 0x80)) :: cs)
            | none => none
        else none
      | _ => none
    else none

/-- Strict UTF-8 decoding of a byte list; each step of the fuelled decoder
consumes at least one byte, so the length of the list is enough fuel. -/
def utf8Decode (l : List Nat) : Option (List Nat) := utf8DecodeF l.length l

/-- The underlying raw input: an immutable byte list together with the
current read position, modelling a Python binary file object. -/
structure FH where
  data : List Nat
  pos : Nat
deriving DecidableEq, Repr

/-- fh.read(n): returns up to n bytes from the current position and advances
the position by the number of bytes actually returned. -/
def FH.read (fh : FH) (n : Nat) : List Nat × FH :=
  let d := (fh.data.drop fh.pos).take n
  (d, ⟨fh.data, fh.pos + d.length⟩)

/-- State of pbzx_decompressor: the raw input handle, the current decompressed
buffer (None once exhausted) and the offset inside it.  The source sets
bufferpos to None together with buffer; we keep a Nat and reset it to 0. -/
structure PbzxState where
  fh : FH
  buffer : Option (List Nat)
  bufferpos : Nat
deriving DecidableEq, Repr

/-- pbzx_decompressor.__init__: reads the 12-byte container header
(4-byte magic b'pbzx' and an informational 8-byte maximum chunk size) and
fails when the magic does not match; struct.unpack also fails when fewer than
12 bytes are available. -/
def pbzx_init (fh : FH) : Except PErr PbzxState :=
  let r := fh.read 12
  if r.1.length ≠ 12 then .error .formatError
  else if r.1.take 4 ≠ [0x70, 0x62, 0x7A, 0x78] then .error .formatError
  else .ok ⟨r.2, none, 0⟩

/-- pbzx_decompressor.next: reads the 16-byte chunk header; a zero-length read
is the end-of-chunks signal (returns none); a read of 1..15 bytes makes
struct.unpack fail; otherwise reads the declared compressed size worth of
bytes (possibly fewer, unchecked) and hands whatever was read to the codec. -/
def pbzx_next (dec : List Nat → Option (List Nat)) (fh : FH) :
    Except PErr (Option (List Nat) × FH) :=
  let r := fh.read 16
  if r.1.length = 0 then .ok (none, r.2)
  else if r.1.length ≠ 16 then .error .formatError
  else
    let compsize := beNat ((r.1.drop 8).take 8)
    let r2 := r.2.read compsize
    match dec r2.1 with
    | none => .error .decompressionError
    | some d => .ok (some d, r2.2)

/-- Fuelled transcription of the while loop of pbzx_decompressor.read:
while bytes are still wanted, refill the buffer from the next chunk when it is
absent, stop when there is no next chunk, otherwise copy out as much of the
buffer as wanted, dropping the buffer once fully consumed. -/
def pbzx_readF (dec : List Nat → Option (List Nat)) :
    Nat → PbzxState → Nat → Option (Except PErr (List Nat × PbzxState))
  | 0, _, _ => none
  | fuel+1, st, size =>
    if size = 0 then some (.ok ([], st))
    else
      match st.buffer with
      | none =>
        match pbzx_next dec st.fh with
        | .error e => some (.error e)
        | .ok (none, fh2) => some (.ok ([], ⟨fh2, none, 0⟩))
        | .ok (some b, fh2) => pbzx_readF dec fuel ⟨fh2, some b, 0⟩ size
      | some b =>
        let want := min size (b.length - st.bufferpos)
        let endpos := st.bufferpos + want
        let chunkdata := (b.drop st.bufferpos).take want
        let st2 : PbzxState :=
          if endpos = b.length then ⟨st.fh, none, 0⟩ else ⟨st.fh, some b, endpos⟩
        match pbzx_readF dec fuel st2 (size - want) with
        | none => none
        | some (.error e) => some (.error e)
        | some (.ok (d, st3)) => some (.ok (chunkdata ++ d, st3))

/-- pbzx_decompressor.read, with fuel that the totality theorem shows to be
sufficient for every well-formed state; the fallback branch is unreachable
there. -/
def pbzx_read (dec : List Nat → Option (List Nat)) (st : PbzxState) (size : Nat) :
    Except PErr (List Nat × PbzxState) :=
  match pbzx_readF dec (st.fh.data.length - st.fh.pos + size + 2) st size with
  | some r => r
  | none => .error .formatError

/-- Fuelled transcription of the while loop of pbzx_decompressor.seek, after
the whence and sign check: identical buffer walk to read, but the bytes are
discarded instead of accumulated. -/
def pbzx_seekF (dec : List Nat → Option (List Nat)) :
    Nat → PbzxState → Nat → Option (Except PErr PbzxState)
  | 0, _, _ => none
  | fuel+1, st, size =>
    if size = 0 then some (.ok st)
    else
      match st.buffer with
      | none =>
        match pbzx_next dec st.fh with
        | .error e => some (.error e)
        | .ok (none, fh2) => some (.ok ⟨fh2, none, 0⟩)
        | .ok (some b, fh2) => pbzx_seekF dec fuel ⟨fh2, some b, 0⟩ size
      | some b =>
        let want := min size (b.length - st.bufferpos)
        let newpos := st.bufferpos + want
        let st2 : PbzxState :=
          if newpos = b.length then ⟨st.fh, none, 0⟩ else ⟨st.fh, some b, newpos⟩
        pbzx_seekF dec fuel st2 (size - want)

/-- pbzx_decompressor.seek: only a relative forward seek (whence = 1 with a
non-negative size) is supported; anything else raises. -/
def pbzx_seek (dec : List Nat → Option (List Nat)) (st : PbzxState)
    (size : Int) (whence : Int) : Except PErr PbzxState :=
  if whence ≠ 1 ∨ size < 0 then .error .unsupportedOperation
  else
    match pbzx_seekF dec (st.fh.data.length - st.fh.pos + size.toNat + 2) st size.toNat with
    | some r => r
    | none => .error .formatError

/-- Instrumented variant of pbzx_readF that additionally records the raw-input
offset of every chunk header it fetches, used to show that no chunk is ever
decompressed twice. -/
def pbzx_readTF (dec : List Nat → Option (List Nat)) :
    Nat → PbzxState → Nat → Option (Except PErr (List Nat × PbzxState × List Nat))
  | 0, _, _ => none
  | fuel+1, st, size =>
    if size = 0 then some (.ok ([], st, []))
    else
      match st.buffer with
      | none =>
        match pbzx_next dec st.fh with
        | .error e => some (.error e)
        | .ok (none, fh2) => some (.ok ([], ⟨fh2, none, 0⟩, []))
        | .ok (some b, fh2) =>
          match pbzx_readTF dec fuel ⟨fh2, some b, 0⟩ size with
          | none => none
          | some (.error e) => some (.error e)
          | some (.ok (d, st3, tr)) => some (.ok (d, st3, st.fh.pos :: tr))
      | some b =>
        let want := min size (b.length - st.bufferpos)
        let endpos := st.bufferpos + want
        let chunkdata := (b.drop st.bufferpos).take want
        let st2 : PbzxState :=
          if endpos = b.length then ⟨st.fh, none, 0⟩ else ⟨st.fh, some b, endpos⟩
        match pbzx_readTF dec fuel st2 (size - want) with
        | none => none
        | some (.error e) => some (.error e)
        | some (.ok (d, st3, tr)) => some (.ok (chunkdata ++ d, st3, tr))

/-- Fuelled parse of the remaining raw input as a chunk sequence, returning
the concatenation of the decompressed chunk contents; none when the sequence
is malformed (truncated chunk header, fewer compressed bytes than declared, or
a chunk the codec rejects).  Mirrors the byte accounting of pbzx_next. -/
def chunksContentF (dec : List Nat → Option (List Nat)) :
    Nat → List Nat → Option (List Nat)
  | 0, l => if l = [] then some [] else none
  | fuel+1, l =>
    if l = [] then some []
    else if l.length < 16 then none
    else
      let compsize := beNat (((l.take 16).drop 8).take 8)
      if (l.drop 16).length < compsize then none
      else
        match dec ((l.drop 16).take compsize) with
        | none => none
        | some d =>
          match chunksContentF dec fuel ((l.drop 16).drop compsize) with
          | none => none
          | some c => some (d ++ c)

/-- The logical content of a raw chunk sequence; each step consumes at least
16 bytes, so the length of the list is enough fuel. -/
def chunksContent (dec : List Nat → Option (List Nat)) (l : List Nat) : Option (List Nat) :=
  chunksContentF dec l.length l

/-- A decompressor state represents a logical byte content L when the unread
part of its buffer followed by the content of the remaining well-formed chunk
sequence equals L. -/
def represents (dec : List Nat → Option (List Nat)) (st : PbzxState) (L : List Nat) : Prop :=
  match st.buffer with
  | none => chunksContent dec (st.fh.data.drop st.fh.pos) = some L
  | some b => st.bufferpos ≤ b.length ∧
      ∃ C, chunksContent dec (st.fh.data.drop st.fh.pos) = some C ∧
        L = b.drop st.bufferpos ++ C

/-- Buffer flag used in the termination measure of the read and seek loops. -/
def bflag (st : PbzxState) : Nat := if st.buffer.isSome then 1 else 0

/-- Well-formedness of a decompressor state: the buffer offset never exceeds
the buffer length.  Every reachable state satisfies this. -/
def pbzxWF (st : PbzxState) : Prop :=
  ∀ b, st.buffer = some b → st.bufferpos ≤ b.length

/-- A simple forward-only in-memory byte stream: the archive walker is
duck-typed over its stream argument in the source, and this is the logical
behaviour that pbzx_decompressor presents (read returns up to n bytes, seek
only skips forward, stopping at the end). -/
structure SimpleStream where
  data : List Nat
  pos : Nat
deriving DecidableEq, Repr

/-- SimpleStream.read: up to n bytes from the current position. -/
def SimpleStream.readBytes (s : SimpleStream) (n : Nat) : List Nat × SimpleStream :=
  let d := (s.data.drop s.pos).take n
  (d, ⟨s.data, s.pos + d.length⟩)

/-- SimpleStream.seek: relative forward seek only, stopping at the end of the
stream, matching the contract of pbzx_decompressor.seek. -/
def SimpleStream.seekFwd (s : SimpleStream) (size : Int) (whence : Int) :
    Except PErr SimpleStream :=
  if whence ≠ 1 ∨ size < 0 then .error .unsupportedOperation
  else .ok ⟨s.data, min (s.pos + size.toNat) s.data.length⟩

/-- The stream capability the walker consumes: the source passes any object
with read and seek, so the walker is embedded relative to this record. -/
structure StreamOps (σ : Type) where
  read : σ → Nat → Except PErr (List Nat × σ)
  seek : σ → Int → Int → Except PErr σ

/-- The StreamOps instance of SimpleStream. -/
def simpleOps : StreamOps SimpleStream where
  read := fun s n => .ok (s.readBytes n)
  seek := fun s size whence => s.seekFwd size whence

/-- Parsed 30-byte entry header plus decoded name, the fields written by
readheader (names kept from the source; text is a list of code points). -/
structure Header where
  unk1 : Nat
  type : Nat
  filesize : Nat
  timestamp : Nat
  attr : Nat
  namelen : Nat
  uid : Int
  gid : Int
  filemode : Nat
  name : List Nat
deriving DecidableEq, Repr

/-- readheader: reads 30 bytes; a zero-length read is the end-of-archive
signal; struct.unpack(">BBQQLHhhH", hdr) fails unless exactly 30 bytes were
obtained; then reads namelen bytes (without checking how many arrived) and
decodes them as UTF-8, failing on invalid UTF-8. -/
def readheader {σ : Type} (ops : StreamOps σ) (s : σ) :
    Except PErr (Option Header × σ) :=
  match ops.read s 30 with
  | .error e => .error e
  | .ok (hdr, s1) =>
    if hdr.length = 0 then .ok (none, s1)
    else if hdr.length ≠ 30 then .error .formatError
    else
      match ops.read s1 (beNat ((hdr.drop 22).take 2)) with
      | .error e => .error e
      | .ok (nameb, s2) =>
        match utf8Decode nameb with
        | none => .error .formatError
        | some nm =>
          .ok (some
            { unk1 := beNat (hdr.take 1)
              type := beNat ((hdr.drop 1).take 1)
              filesize := beNat ((hdr.drop 2).take 8)
              timestamp := beNat ((hdr.drop 10).take 8)
              attr := beNat ((hdr.drop 18).take 4)
              namelen := beNat ((hdr.drop 22).take 2)
              uid := toI16 (beNat ((hdr.drop 24).take 2))
              gid := toI16 (beNat ((hdr.drop 26).take 2))
              filemode := beNat ((hdr.drop 28).take 2)
              name := nm }, s2)

/-- The command-line options the walker consults: the optional output
directory and the listing flag. -/
structure Args where
  output : Option (List Nat)
  list : Bool
deriving DecidableEq, Repr

/-- Observable effects of the walker: a file stored with its content, a
symlink created with its target text, one listing line per entry (the fields
the source prints), and the note warning about an unexpected unk1 marker. -/
inductive Event where
  | store (name : List Nat) (content : List Nat)
  | link (name : List Nat) (target : List Nat)
  | entryLine (typ : Nat) (filemode : Nat) (attr : Nat) (uid : Int) (gid : Int)
      (filesize : Nat) (timestamp : Nat) (name : List Nat) (suffix : List Nat)
  | note (unk1 : Nat)
deriving DecidableEq, Repr

/-- Fuelled transcription of the while loop of savedata: read at most 1 MiB
at a time, stop on a zero-length read, subtract the wanted amount (the source
subtracts wanted, not the length actually read).  Returns the bytes written
to the destination file. -/
def savedataF {σ : Type} (ops : StreamOps σ) :
    Nat → σ → Nat → List Nat → Option (Except PErr (List Nat × σ))
  | 0, _, _, _ => none
  | fuel+1, s, size, acc =>
    if size = 0 then some (.ok (acc, s))
    else
      let wanted := min 0x100000 size
      match ops.read s wanted with
      | .error e => some (.error e)
      | .ok (d, s2) =>
        if d.length = 0 then some (.ok (acc, s2))
        else savedataF ops fuel s2 (size - wanted) (acc ++ d)

/-- savedata: each loop iteration decreases size by at least one, so
size + 1 is enough fuel. -/
def savedata {σ : Type} (ops : StreamOps σ) (s : σ) (size : Nat) :
    Except PErr (List Nat × σ) :=
  match savedataF ops (size + 1) s size [] with
  | some r => r
  | none => .error .formatError

/-- The dispatch on the entry kind inside the walk loop: a symlink entry reads
and decodes its payload and creates the link when an output directory was
given; a file entry with an output directory is stored via savedata; every
other case (directories, unknown kinds, or no output directory) discards the
payload with a relative forward seek.  Returns the sink events, the listing
suffix, and the stream after the payload. -/
def dispatch {σ : Type} (ops : StreamOps σ) (args : Args) (hdr : Header) (s : σ) :
    Except PErr (List Event × List Nat × σ) :=
  if hdr.type = 3 then
    match ops.read s hdr.filesize with
    | .error e => .error e
    | .ok (bytes, s2) =>
      match utf8Decode bytes with
      | none => .error .formatError
      | some tgt =>
        match args.output with
        | some d => .ok ([Event.link (d ++ [47] ++ hdr.name) tgt], [32, 45, 62, 32] ++ tgt, s2)
        | none => .ok ([], [32, 45, 62, 32] ++ tgt, s2)
  else
    match args.output with
    | some d =>
      if hdr.type = 1 then
        match savedata ops s hdr.filesize with
        | .error e => .error e
        | .ok (content, s2) => .ok ([Event.store (d ++ [47] ++ hdr.name) content], [], s2)
      else
        match ops.seek s (hdr.filesize : Int) 1 with
        | .error e => .error e
        | .ok s2 => .ok ([], [], s2)
    | none =>
      match ops.seek s (hdr.filesize : Int) 1 with
      | .error e => .error e
      | .ok s2 => .ok ([], [], s2)

/-- count[hdr.type] += 1 on the dict {1:0, 2:0, 3:0}: a Python dict lookup of
an absent key raises KeyError, so any kind outside 1..3 yields none. -/
def tallyAdd (cnt : Nat × Nat × Nat) (typ : Nat) : Option (Nat × Nat × Nat) :=
  match typ with
  | 1 => some (cnt.1 + 1, cnt.2.1, cnt.2.2)
  | 2 => some (cnt.1, cnt.2.1 + 1, cnt.2.2)
  | 3 => some (cnt.1, cnt.2.1, cnt.2.2 + 1)
  | _ => none

/-- One iteration of the walk loop after a header was parsed: dispatch the
payload, emit the listing line (and the unk1 note) when listing is enabled,
then update the tally. -/
def stepEntry {σ : Type} (ops : StreamOps σ) (args : Args) (hdr : Header) (s : σ)
    (cnt : Nat × Nat × Nat) : Except PErr (List Event × (Nat × Nat × Nat) × σ) :=
  match dispatch ops args hdr s with
  | .error e => .error e
  | .ok (sinkEvs, suffix, s2) =>
    let listEvs : List Event :=
      if args.list then
        Event.entryLine hdr.type hdr.filemode hdr.attr hdr.uid hdr.gid
            hdr.filesize hdr.timestamp hdr.name suffix ::
          (if hdr.unk1 ≠ 0x10 then [Event.note hdr.unk1] else [])
      else []
    match tallyAdd cnt hdr.type with
    | none => .error .keyError
    | some cnt2 => .ok (sinkEvs ++ listEvs, cnt2, s2)

/-- Fuelled transcription of the main loop of processpayload: parse headers
until a zero-length read, dispatching and tallying each entry. -/
def processpayloadF {σ : Type} (ops : StreamOps σ) (args : Args) :
    Nat → σ → (Nat × Nat × Nat) → List Event →
    Option (Except PErr (List Event × (Nat × Nat × Nat)))
  | 0, _, _, _ => none
  | fuel+1, s, cnt, evs =>
    match readheader ops s with
    | .error e => some (.error e)
    | .ok (none, _) => some (.ok (evs, cnt))
    | .ok (some hdr, s1) =>
      match stepEntry ops args hdr s1 cnt with
      | .error e => some (.error e)
      | .ok (newEvs, cnt2, s2) => processpayloadF ops args fuel s2 cnt2 (evs ++ newEvs)

/-- processpayload over the in-memory stream; every continuing iteration
consumes at least 30 bytes, so the data length plus one is enough fuel. -/
def runPayload (args : Args) (s : SimpleStream) :
    Except PErr (List Event × (Nat × Nat × Nat)) :=
  match processpayloadF simpleOps args (s.data.length + 1) s (0, 0, 0) [] with
  | some r => r
  | none => .error .formatError

/-- A caller-visible stream operation: a read of n bytes or a forward skip of
n bytes. -/
inductive StreamOp where
  | read (n : Nat)
  | seek (n : Nat)
deriving DecidableEq, Repr

/-- Running a sequence of operations against the decompressor, collecting the
data returned by the reads. -/
def runOps (dec : List Nat → Option (List Nat)) :
    List StreamOp → PbzxState → Except PErr (List (List Nat) × PbzxState)
  | [], st => .ok ([], st)
  | StreamOp.read n :: rest, st =>
    match pbzx_read dec st n with
    | .error e => .error e
    | .ok (d, st2) =>
      match runOps dec rest st2 with
      | .error e => .error e
      | .ok (ds, st3) => .ok (d :: ds, st3)
  | StreamOp.seek n :: rest, st =>
    match pbzx_seek dec st (n : Int) 1 with
    | .error e => .error e
    | .ok st2 => runOps dec rest st2

/-- The outputs the same operation sequence produces on the ideal flat byte
content: reads take a prefix, reads and skips drop it. -/
def opsOuts : List StreamOp → List Nat → List (List Nat)
  | [], _ => []
  | StreamOp.read n :: rest, L => L.take n :: opsOuts rest (L.drop n)
  | StreamOp.seek n :: rest, L => opsOuts rest (L.drop n)

/-- The flat byte content remaining after an operation sequence. -/
def opsRem : List StreamOp → List Nat → List Nat
  | [], L => L
  | StreamOp.read n :: rest, L => opsRem rest (L.drop n)
  | StreamOp.seek n :: rest, L => opsRem rest (L.drop n)

/-- A toy codec for concrete witnesses: a compressed chunk is a zero byte
followed by the literal content; everything else is rejected. -/
def toyDec (l : List Nat) : Option (List Nat) :=
  match l with
  | 0 :: rest => some rest
  | _ => none

/-- A codec that rejects every input, the behaviour of lzma.decompress on
truncated data. -/
def rejectDec (_ : List Nat) : Option (List Nat) := none

/-- Concrete inner archive: a single 30-byte header of kind 4 (unrecognized),
zero payload size and zero name length. -/
def sampleK4 : List Nat :=
  [16, 4] ++ List.replicate 8 0 ++ List.replicate 8 0 ++ List.replicate 4 0 ++
    [0, 0] ++ [0, 0] ++ [0, 0] ++ [0, 0]

/-- Concrete inner archive: a file header declaring a 2-byte name, but only a
single name byte 97 present in the stream. -/
def sampleShortName : List Nat :=
  [16, 1] ++ List.replicate 8 0 ++ List.replicate 8 0 ++ List.replicate 4 0 ++
    [0, 2] ++ [0, 0] ++ [0, 0] ++ [0, 0] ++ [97]

/-- Concrete inner archive: a file header declaring a 1-byte name whose byte
255 is not valid UTF-8. -/
def sampleBadName : List Nat :=
  [16, 1] ++ List.replicate 8 0 ++ List.replicate 8 0 ++ List.replicate 4 0 ++
    [0, 1] ++ [0, 0] ++ [0, 0] ++ [0, 0] ++ [255]

/-- Concrete inner archive: one symlink entry named "l" with the 5-byte
target text "a/b/c". -/
def sampleSymlink : List Nat :=
  [16, 3, 0, 0, 0, 0, 0, 0, 0, 5] ++ List.replicate 8 0 ++ List.replicate 4 0 ++
    [0, 1] ++ [0, 0] ++ [0, 0] ++ [0, 0] ++ [108] ++ [97, 47, 98, 47, 99]

/-- Concrete inner archive: one directory entry whose reserved marker is 0x11
instead of the expected 0x10. -/
def sampleDirWarn : List Nat :=
  [17, 2] ++ List.replicate 8 0 ++ List.replicate 8 0 ++ List.replicate 4 0 ++
    [0, 0] ++ [0, 0] ++ [0, 0] ++ [0, 0]

/-- Raw chunk sequence holding the logical content 1,2,3,4,5 in one toyDec
chunk. -/
def raw1 : List Nat := [0, 0, 0, 0, 0, 0, 0, 5, 0, 0, 0, 0, 0, 0, 0, 6, 0, 1, 2, 3, 4, 5]

/-- Raw chunk sequence holding the same logical content 1,2,3,4,5 split into
two toyDec chunks. -/
def raw2 : List Nat := [0, 0, 0, 0, 0, 0, 0, 2, 0, 0, 0, 0, 0, 0, 0, 3, 0, 1, 2,
  0, 0, 0, 0, 0, 0, 0, 3, 0, 0, 0, 0, 0, 0, 0, 4, 0, 3, 4, 5]

/-- Raw chunk sequence whose header declares 4 compressed bytes while only 2
remain in the input. -/
def rawTrunc : List Nat := [0, 0, 0, 0, 0, 0, 0, 9, 0, 0, 0, 0, 0, 0, 0, 4, 0, 65]

/-- Raw chunk sequence whose first chunk decompresses to the empty buffer,
followed by a chunk with content 7,8. -/
def rawEmpty : List Nat := [0, 0, 0, 0, 0, 0, 0, 0, 0, 0, 0, 0, 0, 0, 0, 1, 0,
  0, 0, 0, 0, 0, 0, 0, 2, 0, 0, 0, 0, 0, 0, 0, 3, 0, 7, 8]

/-! Helper lemmas about lists, the chunk parse, and the chunk fetch. -/

theorem listTakeAdd {α : Type} (l : List α) (m n : Nat) :
    l.take (m + n) = l.take m ++ (l.drop m).take n := by
  have h1 := (List.take_append_drop m (l.take (m + n))).symm
  rw [List.take_take] at h1
  have h2 : m ⊓ (m + n) = m := by rw [inf_eq_min]; omega
  rw [h2] at h1
  rw [List.take_drop]
  exact h1

theorem chunksContentF_fuel (dec : List Nat → Option (List Nat)) :
    ∀ f1 f2 l, l.length ≤ f1 → l.length ≤ f2 →
      chunksContentF dec f1 l = chunksContentF dec f2 l := by
  intro f1
  induction f1 with
  | zero =>
    intro f2 l h1 _
    have hl : l = [] := by cases l with | nil => rfl | cons a t => simp at h1
    subst hl
    cases f2 <;> simp [chunksContentF]
  | succ f ih =>
    intro f2 l h1 h2
    cases l with
    | nil => cases f2 <;> simp [chunksContentF]
    | cons a t =>
      cases f2 with
      | zero => simp at h2
      | succ f2 =>
        simp only [chunksContentF, if_neg (List.cons_ne_nil a t)]
        split_ifs with h16 hcs
        · rfl
        · rfl
        · have hlen : (((a :: t).drop 16).drop
              (beNat ((((a :: t).take 16).drop 8).take 8))).length =
              (a :: t).length - 16 - beNat ((((a :: t).take 16).drop 8).take 8) := by
            simp only [List.length_drop]
          have h16b : 16 ≤ (a :: t).length := Nat.le_of_not_lt h16
          rw [ih f2 (((a :: t).drop 16).drop (beNat ((((a :: t).take 16).drop 8).take 8)))
            (by rw [hlen]; omega) (by rw [hlen]; omega)]

theorem chunksContent_step (dec : List Nat → Option (List Nat)) (l : List Nat) (h : l ≠ []) :
    chunksContent dec l =
      if l.length < 16 then none
      else if (l.drop 16).length < beNat (((l.take 16).drop 8).take 8) then none
      else
        match dec ((l.drop 16).take (beNat (((l.take 16).drop 8).take 8))) with
        | none => none
        | some d =>
          match chunksContent dec ((l.drop 16).drop (beNat (((l.take 16).drop 8).take 8))) with
          | none => none
          | some c => some (d ++ c) := by
  cases l with
  | nil => exact absurd rfl h
  | cons a t =>
    show chunksContentF dec (t.length + 1) (a :: t) = _
    simp only [chunksContentF, if_neg (List.cons_ne_nil a t)]
    split_ifs with h16 hcs
    · rfl
    · rfl
    · have hlen : (((a :: t).drop 16).drop
          (beNat ((((a :: t).take 16).drop 8).take 8))).length =
          (a :: t).length - 16 - beNat ((((a :: t).take 16).drop 8).take 8) := by
        simp only [List.length_drop]
      have h16b : 16 ≤ (a :: t).length := Nat.le_of_not_lt h16
      rw [chunksContentF_fuel dec t.length
        ((((a :: t).drop 16).drop (beNat ((((a :: t).take 16).drop 8).take 8))).length)
        (((a :: t).drop 16).drop (beNat ((((a :: t).take 16).drop 8).take 8)))
        (by rw [hlen]; simp at h16b ⊢; omega) (le_refl _)]
      rfl

theorem pbzx_next_at_end (dec : List Nat → Option (List Nat)) (fh : FH)
    (h : fh.data.length ≤ fh.pos) : pbzx_next dec fh = .ok (none, ⟨fh.data, fh.pos⟩) := by
  have hdrop : fh.data.drop fh.pos = [] := List.drop_of_length_le h
  simp [pbzx_next, FH.read, hdrop]

theorem pbzx_next_some_bounds (dec : List Nat → Option (List Nat)) (fh : FH)
    (b : List Nat) (fh2 : FH) (h : pbzx_next dec fh = .ok (some b, fh2)) :
    fh2.data = fh.data ∧ fh.pos + 16 ≤ fh2.pos ∧ fh2.pos ≤ fh.data.length := by
  simp only [pbzx_next, FH.read] at h
  split_ifs at h with h0 h16
  · simp at h
  · have hl : (List.take 16 (List.drop fh.pos fh.data)).length = 16 := not_ne_iff.mp h16
    rw [hl] at h
    have hpos : fh.pos + 16 ≤ fh.data.length := by
      simp only [List.length_take, List.length_drop, inf_eq_min] at hl
      omega
    cases hdec : dec (List.take
        (beNat (List.take 8 (List.drop 8 (List.take 16 (List.drop fh.pos fh.data)))))
        (List.drop (fh.pos + 16) fh.data)) with
    | none => rw [hdec] at h; simp at h
    | some d =>
      rw [hdec] at h
      simp only [Except.ok.injEq, Prod.mk.injEq, Option.some.injEq] at h
      obtain ⟨hb, hfh2⟩ := h
      subst hfh2
      refine ⟨rfl, by dsimp only; omega, ?_⟩
      dsimp only
      simp only [List.length_take, List.length_drop, inf_eq_min]
      omega

theorem pbzx_next_of_chunks (dec : List Nat → Option (List Nat)) (fh : FH) (L : List Nat)
    (h : chunksContent dec (fh.data.drop fh.pos) = some L) :
    (fh.data.drop fh.pos = [] ∧ L = [] ∧ pbzx_next dec fh = .ok (none, ⟨fh.data, fh.pos⟩)) ∨
    (∃ b C fh2, pbzx_next dec fh = .ok (some b, fh2) ∧ L = b ++ C ∧
      fh2.data = fh.data ∧ fh.pos + 16 ≤ fh2.pos ∧ fh2.pos ≤ fh.data.length ∧
      chunksContent dec (fh.data.drop fh2.pos) = some C) := by
  by_cases hraw : fh.data.drop fh.pos = []
  · left
    have hL : L = [] := by
      rw [hraw] at h
      simpa [chunksContent, chunksContentF] using h.symm
    refine ⟨hraw, hL, ?_⟩
    exact pbzx_next_at_end dec fh (by simpa [List.drop_eq_nil_iff] using hraw)
  · right
    rw [chunksContent_step dec _ hraw] at h
    split_ifs at h with h16 hcs
    have h16b : 16 ≤ (fh.data.drop fh.pos).length := Nat.le_of_not_lt h16
    have hpos : fh.pos + 16 ≤ fh.data.length := by
      simp only [List.length_drop] at h16b
      have : fh.pos < fh.data.length := by
        by_contra hc
        exact hraw (List.drop_of_length_le (Nat.le_of_not_lt hc))
      omega
    have hd16 : ((fh.data.drop fh.pos).take 16).length = 16 := by
      simp only [List.length_take, List.length_drop, inf_eq_min]
      simp only [List.length_drop] at h16b
      omega
    have hdrop16 : (fh.data.drop fh.pos).drop 16 = fh.data.drop (fh.pos + 16) := by
      rw [List.drop_drop]
    cases hdec : dec (((fh.data.drop fh.pos).drop 16).take
        (beNat ((((fh.data.drop fh.pos).take 16).drop 8).take 8))) with
    | none => rw [hdec] at h; simp at h
    | some d =>
      rw [hdec] at h
      cases hrest : chunksContent dec (((fh.data.drop fh.pos).drop 16).drop
          (beNat ((((fh.data.drop fh.pos).take 16).drop 8).take 8))) with
      | none => rw [hrest] at h; simp at h
      | some c =>
        rw [hrest] at h
        simp only [Option.some.injEq] at h
        have hxzlen : (((fh.data.drop fh.pos).drop 16).take
            (beNat ((((fh.data.drop fh.pos).take 16).drop 8).take 8))).length =
            beNat ((((fh.data.drop fh.pos).take 16).drop 8).take 8) := by
          simp only [List.length_take, List.length_drop, inf_eq_min]
          simp only [List.length_drop] at hcs
          omega
        refine ⟨d, c, ⟨fh.data, fh.pos + 16 +
          beNat ((((fh.data.drop fh.pos).take 16).drop 8).take 8)⟩, ?_, h.symm, rfl, ?_, ?_, ?_⟩
        · simp only [pbzx_next, FH.read]
          rw [if_neg (by rw [hd16]; omega), if_neg (by rw [hd16]; omega)]
          rw [hd16]
          have harg : (List.take (beNat (List.take 8 (List.drop 8 (List.take 16
              (List.drop fh.pos fh.data))))) (List.drop (fh.pos + 16) fh.data)) =
              ((fh.data.drop fh.pos).drop 16).take
                (beNat ((((fh.data.drop fh.pos).take 16).drop 8).take 8)) := by
            rw [hdrop16]
          rw [harg, hdec, hxzlen]
        · dsimp only
          omega
        · dsimp only
          simp only [List.length_drop] at hcs
          omega
        · dsimp only
          rw [List.drop_drop, List.drop_drop] at hrest
          rw [← Nat.add_assoc] at hrest
          exact hrest

theorem readF_refines (dec : List Nat → Option (List Nat)) :
    ∀ (fuel : Nat) (st : PbzxState) (size : Nat) (L : List Nat),
      represents dec st L →
      st.fh.data.length - st.fh.pos + size + bflag st + 1 ≤ fuel →
      ∃ st2, pbzx_readF dec fuel st size = some (.ok (L.take size, st2)) ∧
        represents dec st2 (L.drop size) ∧ st.fh.pos ≤ st2.fh.pos ∧
        st2.fh.data = st.fh.data := by
  intro fuel
  induction fuel with
  | zero => intro st size L _ hf; omega
  | succ fuel ih =>
    intro st size L hrep hf
    by_cases hsz : size = 0
    · subst hsz
      exact ⟨st, by simp [pbzx_readF], by simpa using hrep, le_refl _, rfl⟩
    · cases hbuf : st.buffer with
      | none =>
        have hc : chunksContent dec (st.fh.data.drop st.fh.pos) = some L := by
          have := hrep
          rw [represents, hbuf] at this
          exact this
        rcases pbzx_next_of_chunks dec st.fh L hc with
          ⟨hraw, hL, hnext⟩ | ⟨b, C, fh2, hnext, hL, hdata, hge, hle, hrest⟩
        · refine ⟨⟨⟨st.fh.data, st.fh.pos⟩, none, 0⟩, ?_, ?_, le_refl _, rfl⟩
          · simp [pbzx_readF, hsz, hbuf, hnext, hL]
          · rw [represents]
            simp [hL, hraw, chunksContent, chunksContentF]
        · have hrep1 : represents dec ⟨fh2, some b, 0⟩ L := by
            rw [represents]
            refine ⟨Nat.zero_le _, C, ?_, by simpa using hL⟩
            rw [hdata]
            exact hrest
          have hbf0 : bflag st = 0 := by simp [bflag, hbuf]
          have hbf1 : bflag ⟨fh2, some b, 0⟩ = 1 := by simp [bflag]
          have hfuel1 : fh2.data.length - fh2.pos + size + bflag ⟨fh2, some b, 0⟩ + 1 ≤ fuel := by
            rw [hbf1, hdata]
            rw [hbf0] at hf
            omega
          obtain ⟨st2, hrun, hrep2, hpos2, hdata2⟩ := ih ⟨fh2, some b, 0⟩ size L hrep1 hfuel1
          refine ⟨st2, ?_, hrep2, ?_, ?_⟩
          · simp only [pbzx_readF, hbuf, if_neg hsz, hnext]
            exact hrun
          · have hpos2b : fh2.pos ≤ st2.fh.pos := hpos2
            omega
          · rw [hdata2, hdata]
      | some b =>
        have hrep' : st.bufferpos ≤ b.length ∧ ∃ C,
            chunksContent dec (st.fh.data.drop st.fh.pos) = some C ∧
            L = b.drop st.bufferpos ++ C := by
          have := hrep
          rw [represents, hbuf] at this
          exact this
        obtain ⟨hbp, C, hcc, hL⟩ := hrep'
        have hwle : min size (b.length - st.bufferpos) ≤ (b.drop st.bufferpos).length := by
          simp only [List.length_drop]
          omega
        have htake : L.take (min size (b.length - st.bufferpos)) =
            (b.drop st.bufferpos).take (min size (b.length - st.bufferpos)) := by
          rw [hL, List.take_append_eq_append_take, Nat.sub_eq_zero_of_le hwle,
            List.take_zero, List.append_nil]
        have hdropw : L.drop (min size (b.length - st.bufferpos)) =
            (b.drop st.bufferpos).drop (min size (b.length - st.bufferpos)) ++ C := by
          rw [hL, List.drop_append_eq_append_drop, Nat.sub_eq_zero_of_le hwle,
            List.drop_zero]
        have htakeAll : L.take size =
            (b.drop st.bufferpos).take (min size (b.length - st.bufferpos)) ++
              (L.drop (min size (b.length - st.bufferpos))).take
                (size - min size (b.length - st.bufferpos)) := by
          rw [← htake]
          have hms : size = min size (b.length - st.bufferpos) +
              (size - min size (b.length - st.bufferpos)) := by omega
          conv_lhs => rw [hms]
          exact listTakeAdd L _ _
        by_cases hend : st.bufferpos + min size (b.length - st.bufferpos) = b.length
        · have hdropC : L.drop (min size (b.length - st.bufferpos)) = C := by
            rw [hdropw, List.drop_of_length_le (by simp only [List.length_drop]; omega),
              List.nil_append]
          have hrep1 : represents dec ⟨st.fh, none, 0⟩
              (L.drop (min size (b.length - st.bufferpos))) := by
            rw [represents]
            rw [hdropC]
            exact hcc
          have hbf1 : bflag st = 1 := by simp [bflag, hbuf]
          have hfuel1 : st.fh.data.length - st.fh.pos +
              (size - min size (b.length - st.bufferpos)) +
              bflag ⟨st.fh, none, 0⟩ + 1 ≤ fuel := by
            have hbf0 : bflag ⟨st.fh, none, 0⟩ = 0 := by simp [bflag]
            rw [hbf0]
            rw [hbf1] at hf
            omega
          obtain ⟨st2, hrun, hrep2, hpos2, hdata2⟩ :=
            ih ⟨st.fh, none, 0⟩ (size - min size (b.length - st.bufferpos))
              (L.drop (min size (b.length - st.bufferpos))) hrep1 hfuel1
          refine ⟨st2, ?_, ?_, hpos2, hdata2⟩
          · simp only [pbzx_readF, hbuf, if_neg hsz]
            rw [if_pos hend, hrun]
            rw [htakeAll]
          · rw [List.drop_drop] at hrep2
            have : min size (b.length - st.bufferpos) +
                (size - min size (b.length - st.bufferpos)) = size := by omega
            rw [this] at hrep2
            exact hrep2
        · have hw : min size (b.length - st.bufferpos) = size := by omega
          have hbplt : st.bufferpos + size ≤ b.length := by omega
          have hrep1 : represents dec ⟨st.fh, some b, st.bufferpos + size⟩ (L.drop size) := by
            rw [represents]
            refine ⟨by dsimp only; omega, C, hcc, ?_⟩
            rw [← hw, hdropw, hw, List.drop_drop]
          have hbf1 : bflag st = 1 := by simp [bflag, hbuf]
          have hfuel1 : st.fh.data.length - st.fh.pos + 0 +
              bflag ⟨st.fh, some b, st.bufferpos + size⟩ + 1 ≤ fuel := by
            have hbf1b : bflag ⟨st.fh, some b, st.bufferpos + size⟩ = 1 := by simp [bflag]
            rw [hbf1b]
            rw [hbf1] at hf
            omega
          obtain ⟨st2, hrun, hrep2, hpos2, hdata2⟩ :=
            ih ⟨st.fh, some b, st.bufferpos + size⟩ 0 (L.drop size) hrep1 (by simpa using hfuel1)
          have htake2 : L.take size = (b.drop st.bufferpos).take size := by
            rw [hw] at htake
            exact htake
          refine ⟨st2, ?_, by simpa using hrep2, hpos2, hdata2⟩
          · rw [hw] at hend
            simp only [pbzx_readF, hbuf, if_neg hsz]
            rw [hw, if_neg hend, Nat.sub_self, hrun]
            simp only [List.take_zero, List.append_nil, htake2]

theorem seekF_refines (dec : List Nat → Option (List Nat)) :
    ∀ (fuel : Nat) (st : PbzxState) (size : Nat) (L : List Nat),
      represents dec st L →
      st.fh.data.length - st.fh.pos + size + bflag st + 1 ≤ fuel →
      ∃ st2, pbzx_seekF dec fuel st size = some (.ok st2) ∧
        represents dec st2 (L.drop size) ∧ st.fh.pos ≤ st2.fh.pos ∧
        st2.fh.data = st.fh.data := by
  intro fuel
  induction fuel with
  | zero => intro st size L _ hf; omega
  | succ fuel ih =>
    intro st size L hrep hf
    by_cases hsz : size = 0
    · subst hsz
      exact ⟨st, by simp [pbzx_seekF], by simpa using hrep, le_refl _, rfl⟩
    · cases hbuf : st.buffer with
      | none =>
        have hc : chunksContent dec (st.fh.data.drop st.fh.pos) = some L := by
          have := hrep
          rw [represents, hbuf] at this
          exact this
        rcases pbzx_next_of_chunks dec st.fh L hc with
          ⟨hraw, hL, hnext⟩ | ⟨b, C, fh2, hnext, hL, hdata, hge, hle, hrest⟩
        · refine ⟨⟨⟨st.fh.data, st.fh.pos⟩, none, 0⟩, ?_, ?_, le_refl _, rfl⟩
          · simp [pbzx_seekF, hsz, hbuf, hnext, hL]
          · rw [represents]
            simp [hL, hraw, chunksContent, chunksContentF]
        · have hrep1 : represents dec ⟨fh2, some b, 0⟩ L := by
            rw [represents]
            refine ⟨Nat.zero_le _, C, ?_, by simpa using hL⟩
            rw [hdata]
            exact hrest
          have hbf0 : bflag st = 0 := by simp [bflag, hbuf]
          have hbf1 : bflag ⟨fh2, some b, 0⟩ = 1 := by simp [bflag]
          have hfuel1 : fh2.data.length - fh2.pos + size + bflag ⟨fh2, some b, 0⟩ + 1 ≤ fuel := by
            rw [hbf1, hdata]
            rw [hbf0] at hf
            omega
          obtain ⟨st2, hrun, hrep2, hpos2, hdata2⟩ := ih ⟨fh2, some b, 0⟩ size L hrep1 hfuel1
          refine ⟨st2, ?_, hrep2, ?_, ?_⟩
          · simp only [pbzx_seekF, hbuf, if_neg hsz, hnext]
            exact hrun
          · have hpos2b : fh2.pos ≤ st2.fh.pos := hpos2
            omega
          · rw [hdata2, hdata]
      | some b =>
        have hrep' : st.bufferpos ≤ b.length ∧ ∃ C,
            chunksContent dec (st.fh.data.drop st.fh.pos) = some C ∧
            L = b.drop st.bufferpos ++ C := by
          have := hrep
          rw [represents, hbuf] at this
          exact this
        obtain ⟨hbp, C, hcc, hL⟩ := hrep'
        have hwle : min size (b.length - st.bufferpos) ≤ (b.drop st.bufferpos).length := by
          simp only [List.length_drop]
          omega
        have hdropw : L.drop (min size (b.length - st.bufferpos)) =
            (b.drop st.bufferpos).drop (min size (b.length - st.bufferpos)) ++ C := by
          rw [hL, List.drop_append_eq_append_drop, Nat.sub_eq_zero_of_le hwle,
            List.drop_zero]
        by_cases hend : st.bufferpos + min size (b.length - st.bufferpos) = b.length
        · have hdropC : L.drop (min size (b.length - st.bufferpos)) = C := by
            rw [hdropw, List.drop_of_length_le (by simp only [List.length_drop]; omega),
              List.nil_append]
          have hrep1 : represents dec ⟨st.fh, none, 0⟩
              (L.drop (min size (b.length - st.bufferpos))) := by
            rw [represents]
            rw [hdropC]
            exact hcc
          have hbf1 : bflag st = 1 := by simp [bflag, hbuf]
          have hfuel1 : st.fh.data.length - st.fh.pos +
              (size - min size (b.length - st.bufferpos)) +
              bflag ⟨st.fh, none, 0⟩ + 1 ≤ fuel := by
            have hbf0 : bflag ⟨st.fh, none, 0⟩ = 0 := by simp [bflag]
            rw [hbf0]
            rw [hbf1] at hf
            omega
          obtain ⟨st2, hrun, hrep2, hpos2, hdata2⟩ :=
            ih ⟨st.fh, none, 0⟩ (size - min size (b.length - st.bufferpos))
              (L.drop (min size (b.length - st.bufferpos))) hrep1 hfuel1
          refine ⟨st2, ?_, ?_, hpos2, hdata2⟩
          · simp only [pbzx_seekF, hbuf, if_neg hsz]
            rw [if_pos hend]
            exact hrun
          · rw [List.drop_drop] at hrep2
            have : min size (b.length - st.bufferpos) +
                (size - min size (b.length - st.bufferpos)) = size := by omega
            rw [this] at hrep2
            exact hrep2
        · have hw : min size (b.length - st.bufferpos) = size := by omega
          have hbplt : st.bufferpos + size ≤ b.length := by omega
          have hrep1 : represents dec ⟨st.fh, some b, st.bufferpos + size⟩ (L.drop size) := by
            rw [represents]
            refine ⟨by dsimp only; omega, C, hcc, ?_⟩
            rw [← hw, hdropw, hw, List.drop_drop]
          have hbf1 : bflag st = 1 := by simp [bflag, hbuf]
          have hfuel1 : st.fh.data.length - st.fh.pos + 0 +
              bflag ⟨st.fh, some b, st.bufferpos + size⟩ + 1 ≤ fuel := by
            have hbf1b : bflag ⟨st.fh, some b, st.bufferpos + size⟩ = 1 := by simp [bflag]
            rw [hbf1b]
            rw [hbf1] at hf
            omega
          obtain ⟨st2, hrun, hrep2, hpos2, hdata2⟩ :=
            ih ⟨st.fh, some b, st.bufferpos + size⟩ 0 (L.drop size) hrep1 (by simpa using hfuel1)
          refine ⟨st2, ?_, by simpa using hrep2, hpos2, hdata2⟩
          · rw [hw] at hend
            simp only [pbzx_seekF, hbuf, if_neg hsz]
            rw [hw, if_neg hend, Nat.sub_self]
            exact hrun

theorem readTF_refines (dec : List Nat → Option (List Nat)) :
    ∀ (fuel : Nat) (st : PbzxState) (size : Nat) (L : List Nat),
      represents dec st L →
      st.fh.data.length - st.fh.pos + size + bflag st + 1 ≤ fuel →
      ∃ st2 tr, pbzx_readTF dec fuel st size = some (.ok (L.take size, st2, tr)) ∧
        represents dec st2 (L.drop size) ∧ st.fh.pos ≤ st2.fh.pos ∧
        st2.fh.data = st.fh.data ∧ List.Chain' (fun x y => x < y) tr ∧
        (∀ o, o ∈ tr → st.fh.pos ≤ o) := by
  intro fuel
  induction fuel with
  | zero => intro st size L _ hf; omega
  | succ fuel ih =>
    intro st size L hrep hf
    by_cases hsz : size = 0
    · subst hsz
      exact ⟨st, [], by simp [pbzx_readTF], by simpa using hrep, le_refl _, rfl,
        List.chain'_nil, by simp⟩
    · cases hbuf : st.buffer with
      | none =>
        have hc : chunksContent dec (st.fh.data.drop st.fh.pos) = some L := by
          have := hrep
          rw [represents, hbuf] at this
          exact this
        rcases pbzx_next_of_chunks dec st.fh L hc with
          ⟨hraw, hL, hnext⟩ | ⟨b, C, fh2, hnext, hL, hdata, hge, hle, hrest⟩
        · refine ⟨⟨⟨st.fh.data, st.fh.pos⟩, none, 0⟩, [], ?_, ?_, le_refl _, rfl,
            List.chain'_nil, by simp⟩
          · simp [pbzx_readTF, hsz, hbuf, hnext, hL]
          · rw [represents]
            simp [hL, hraw, chunksContent, chunksContentF]
        · have hrep1 : represents dec ⟨fh2, some b, 0⟩ L := by
            rw [represents]
            refine ⟨Nat.zero_le _, C, ?_, by simpa using hL⟩
            rw [hdata]
            exact hrest
          have hbf0 : bflag st = 0 := by simp [bflag, hbuf]
          have hbf1 : bflag ⟨fh2, some b, 0⟩ = 1 := by simp [bflag]
          have hfuel1 : fh2.data.length - fh2.pos + size + bflag ⟨fh2, some b, 0⟩ + 1 ≤ fuel := by
            rw [hbf1, hdata]
            rw [hbf0] at hf
            omega
          obtain ⟨st2, tr2, hrun, hrep2, hpos2, hdata2, hch2, hmem2⟩ :=
            ih ⟨fh2, some b, 0⟩ size L hrep1 hfuel1
          have hpos2b : fh2.pos ≤ st2.fh.pos := hpos2
          have hmem2b : ∀ o, o ∈ tr2 → fh2.pos ≤ o := hmem2
          refine ⟨st2, st.fh.pos :: tr2, ?_, hrep2, by omega, by rw [hdata2, hdata], ?_, ?_⟩
          · simp only [pbzx_readTF, hbuf, if_neg hsz, hnext]
            rw [hrun]
          · rw [List.chain'_cons']
            refine ⟨?_, hch2⟩
            intro y hy
            have hy2 : y ∈ tr2 := List.mem_of_mem_head? hy
            have := hmem2b y hy2
            omega
          · intro o ho
            rcases List.mem_cons.mp ho with hh | ht
            · omega
            · have := hmem2b o ht
              omega
      | some b =>
        have hrep' : st.bufferpos ≤ b.length ∧ ∃ C,
            chunksContent dec (st.fh.data.drop st.fh.pos) = some C ∧
            L = b.drop st.bufferpos ++ C := by
          have := hrep
          rw [represents, hbuf] at this
          exact this
        obtain ⟨hbp, C, hcc, hL⟩ := hrep'
        have hwle : min size (b.length - st.bufferpos) ≤ (b.drop st.bufferpos).length := by
          simp only [List.length_drop]
          omega
        have htake : L.take (min size (b.length - st.bufferpos)) =
            (b.drop st.bufferpos).take (min size (b.length - st.bufferpos)) := by
          rw [hL, List.take_append_eq_append_take, Nat.sub_eq_zero_of_le hwle,
            List.take_zero, List.append_nil]
        have hdropw : L.drop (min size (b.length - st.bufferpos)) =
            (b.drop st.bufferpos).drop (min size (b.length - st.bufferpos)) ++ C := by
          rw [hL, List.drop_append_eq_append_drop, Nat.sub_eq_zero_of_le hwle,
            List.drop_zero]
        have htakeAll : L.take size =
            (b.drop st.bufferpos).take (min size (b.length - st.bufferpos)) ++
              (L.drop (min size (b.length - st.bufferpos))).take
                (size - min size (b.length - st.bufferpos)) := by
          rw [← htake]
          have hms : size = min size (b.length - st.bufferpos) +
              (size - min size (b.length - st.bufferpos)) := by omega
          conv_lhs => rw [hms]
          exact listTakeAdd L _ _
        by_cases hend : st.bufferpos + min size (b.length - st.bufferpos) = b.length
        · have hdropC : L.drop (min size (b.length - st.bufferpos)) = C := by
            rw [hdropw, List.drop_of_length_le (by simp only [List.length_drop]; omega),
              List.nil_append]
          have hrep1 : represents dec ⟨st.fh, none, 0⟩
              (L.drop (min size (b.length - st.bufferpos))) := by
            rw [represents]
            rw [hdropC]
            exact hcc
          have hbf1 : bflag st = 1 := by simp [bflag, hbuf]
          have hfuel1 : st.fh.data.length - st.fh.pos +
              (size - min size (b.length - st.bufferpos)) +
              bflag ⟨st.fh, none, 0⟩ + 1 ≤ fuel := by
            have hbf0 : bflag ⟨st.fh, none, 0⟩ = 0 := by simp [bflag]
            rw [hbf0]
            rw [hbf1] at hf
            omega
          obtain ⟨st2, tr2, hrun, hrep2, hpos2, hdata2, hch2, hmem2⟩ :=
            ih ⟨st.fh, none, 0⟩ (size - min size (b.length - st.bufferpos))
              (L.drop (min size (b.length - st.bufferpos))) hrep1 hfuel1
          refine ⟨st2, tr2, ?_, ?_, hpos2, hdata2, hch2, hmem2⟩
          · simp only [pbzx_readTF, hbuf, if_neg hsz]
            rw [if_pos hend, hrun]
            rw [htakeAll]
          · rw [List.drop_drop] at hrep2
            have : min size (b.length - st.bufferpos) +
                (size - min size (b.length - st.bufferpos)) = size := by omega
            rw [this] at hrep2
            exact hrep2
        · have hw : min size (b.length - st.bufferpos) = size := by omega
          have hbplt : st.bufferpos + size ≤ b.length := by omega
          have hrep1 : represents dec ⟨st.fh, some b, st.bufferpos + size⟩ (L.drop size) := by
            rw [represents]
            refine ⟨by dsimp only; omega, C, hcc, ?_⟩
            rw [← hw, hdropw, hw, List.drop_drop]
          have hbf1 : bflag st = 1 := by simp [bflag, hbuf]
          have hfuel1 : st.fh.data.length - st.fh.pos + 0 +
              bflag ⟨st.fh, some b, st.bufferpos + size⟩ + 1 ≤ fuel := by
            have hbf1b : bflag ⟨st.fh, some b, st.bufferpos + size⟩ = 1 := by simp [bflag]
            rw [hbf1b]
            rw [hbf1] at hf
            omega
          obtain ⟨st2, tr2, hrun, hrep2, hpos2, hdata2, hch2, hmem2⟩ :=
            ih ⟨st.fh, some b, st.bufferpos + size⟩ 0 (L.drop size) hrep1 (by simpa using hfuel1)
          have htake2 : L.take size = (b.drop st.bufferpos).take size := by
            rw [hw] at htake
            exact htake
          refine ⟨st2, tr2, ?_, by simpa using hrep2, hpos2, hdata2, hch2, hmem2⟩
          · rw [hw] at hend
            simp only [pbzx_readTF, hbuf, if_neg hsz]
            rw [hw, if_neg hend, Nat.sub_self, hrun]
            simp only [List.take_zero, List.append_nil, htake2]

theorem pbzx_next_none_inv (dec : List Nat → Option (List Nat)) (fh : FH) (fh2 : FH)
    (h : pbzx_next dec fh = .ok (none, fh2)) :
    fh2 = ⟨fh.data, fh.pos⟩ ∧ fh.data.length ≤ fh.pos := by
  simp only [pbzx_next, FH.read] at h
  split_ifs at h with h0 h16
  · simp only [Except.ok.injEq, Prod.mk.injEq] at h
    have hlen : (List.take 16 (List.drop fh.pos fh.data)).length = 0 := h0
    simp only [List.length_take, List.length_drop, inf_eq_min] at hlen
    obtain ⟨-, hfh2⟩ := h
    constructor
    · rw [← hfh2]
      have h0b : (List.take 16 (List.drop fh.pos fh.data)).length = 0 := h0
      rw [h0b, Nat.add_zero]
    · omega
  · split at h
    · simp at h
    · simp at h

theorem readF_total (dec : List Nat → Option (List Nat)) :
    ∀ (fuel : Nat) (st : PbzxState) (size : Nat),
      pbzxWF st →
      st.fh.data.length - st.fh.pos + size + bflag st + 1 ≤ fuel →
      (pbzx_readF dec fuel st size).isSome = true := by
  intro fuel
  induction fuel with
  | zero => intro st size _ hf; omega
  | succ fuel ih =>
    intro st size hwf hf
    by_cases hsz : size = 0
    · simp [pbzx_readF, hsz]
    · cases hbuf : st.buffer with
      | none =>
        cases hnext : pbzx_next dec st.fh with
        | error e => simp [pbzx_readF, if_neg hsz, hbuf, hnext]
        | ok p =>
          obtain ⟨ob, fh2⟩ := p
          cases ob with
          | none => simp [pbzx_readF, if_neg hsz, hbuf, hnext]
          | some b =>
            obtain ⟨hdata, hge, hle⟩ := pbzx_next_some_bounds dec st.fh b fh2 hnext
            have hwf1 : pbzxWF ⟨fh2, some b, 0⟩ := by
              intro b2 hb2
              simp at hb2
              subst hb2
              exact Nat.zero_le _
            have hbf0 : bflag st = 0 := by simp [bflag, hbuf]
            have hbf1 : bflag ⟨fh2, some b, 0⟩ = 1 := by simp [bflag]
            have hfuel1 : fh2.data.length - fh2.pos + size + bflag ⟨fh2, some b, 0⟩ + 1 ≤ fuel := by
              rw [hbf1, hdata]
              rw [hbf0] at hf
              omega
            have hrec := ih ⟨fh2, some b, 0⟩ size hwf1 hfuel1
            simp only [pbzx_readF, if_neg hsz, hbuf, hnext]
            exact hrec
      | some b =>
        have hbp : st.bufferpos ≤ b.length := hwf b hbuf
        have hbf1 : bflag st = 1 := by simp [bflag, hbuf]
        by_cases hend : st.bufferpos + min size (b.length - st.bufferpos) = b.length
        · have hwf1 : pbzxWF ⟨st.fh, none, 0⟩ := by intro b2 hb2; simp at hb2
          have hfuel1 : st.fh.data.length - st.fh.pos +
              (size - min size (b.length - st.bufferpos)) + bflag ⟨st.fh, none, 0⟩ + 1 ≤ fuel := by
            have hbf0 : bflag ⟨st.fh, none, 0⟩ = 0 := by simp [bflag]
            rw [hbf0]
            rw [hbf1] at hf
            omega
          have hrec := ih ⟨st.fh, none, 0⟩ (size - min size (b.length - st.bufferpos)) hwf1 hfuel1
          simp only [pbzx_readF, if_neg hsz, hbuf]
          rw [if_pos hend]
          obtain ⟨r, hr⟩ := Option.isSome_iff_exists.mp hrec
          rw [hr]
          cases r with
          | error e => simp
          | ok q => obtain ⟨d, st3⟩ := q; simp
        · have hw : min size (b.length - st.bufferpos) = size := by omega
          have hwf1 : pbzxWF ⟨st.fh, some b, st.bufferpos + size⟩ := by
            intro b2 hb2
            simp at hb2
            subst hb2
            dsimp only
            omega
          have hfuel1 : st.fh.data.length - st.fh.pos + 0 +
              bflag ⟨st.fh, some b, st.bufferpos + size⟩ + 1 ≤ fuel := by
            have hbf1b : bflag ⟨st.fh, some b, st.bufferpos + size⟩ = 1 := by simp [bflag]
            rw [hbf1b]
            rw [hbf1] at hf
            omega
          have hrec := ih ⟨st.fh, some b, st.bufferpos + size⟩ 0 hwf1 (by simpa using hfuel1)
          rw [hw] at hend
          simp only [pbzx_readF, if_neg hsz, hbuf]
          rw [hw, if_neg hend, Nat.sub_self]
          obtain ⟨r, hr⟩ := Option.isSome_iff_exists.mp hrec
          rw [hr]
          cases r with
          | error e => simp
          | ok q => obtain ⟨d, st3⟩ := q; simp

theorem seekF_total (dec : List Nat → Option (List Nat)) :
    ∀ (fuel : Nat) (st : PbzxState) (size : Nat),
      pbzxWF st →
      st.fh.data.length - st.fh.pos + size + bflag st + 1 ≤ fuel →
      (pbzx_seekF dec fuel st size).isSome = true := by
  intro fuel
  induction fuel with
  | zero => intro st size _ hf; omega
  | succ fuel ih =>
    intro st size hwf hf
    by_cases hsz : size = 0
    · simp [pbzx_seekF, hsz]
    · cases hbuf : st.buffer with
      | none =>
        cases hnext : pbzx_next dec st.fh with
        | error e => simp [pbzx_seekF, if_neg hsz, hbuf, hnext]
        | ok p =>
          obtain ⟨ob, fh2⟩ := p
          cases ob with
          | none => simp [pbzx_seekF, if_neg hsz, hbuf, hnext]
          | some b =>
            obtain ⟨hdata, hge, hle⟩ := pbzx_next_some_bounds dec st.fh b fh2 hnext
            have hwf1 : pbzxWF ⟨fh2, some b, 0⟩ := by
              intro b2 hb2
              simp at hb2
              subst hb2
              exact Nat.zero_le _
            have hbf0 : bflag st = 0 := by simp [bflag, hbuf]
            have hbf1 : bflag ⟨fh2, some b, 0⟩ = 1 := by simp [bflag]
            have hfuel1 : fh2.data.length - fh2.pos + size + bflag ⟨fh2, some b, 0⟩ + 1 ≤ fuel := by
              rw [hbf1, hdata]
              rw [hbf0] at hf
              omega
            have hrec := ih ⟨fh2, some b, 0⟩ size hwf1 hfuel1
            simp only [pbzx_seekF, if_neg hsz, hbuf, hnext]
            exact hrec
      | some b =>
        have hbp : st.bufferpos ≤ b.length := hwf b hbuf
        have hbf1 : bflag st = 1 := by simp [bflag, hbuf]
        by_cases hend : st.bufferpos + min size (b.length - st.bufferpos) = b.length
        · have hwf1 : pbzxWF ⟨st.fh, none, 0⟩ := by intro b2 hb2; simp at hb2
          have hfuel1 : st.fh.data.length - st.fh.pos +
              (size - min size (b.length - st.bufferpos)) + bflag ⟨st.fh, none, 0⟩ + 1 ≤ fuel := by
            have hbf0 : bflag ⟨st.fh, none, 0⟩ = 0 := by simp [bflag]
            rw [hbf0]
            rw [hbf1] at hf
            omega
          have hrec := ih ⟨st.fh, none, 0⟩ (size - min size (b.length - st.bufferpos)) hwf1 hfuel1
          simp only [pbzx_seekF, if_neg hsz, hbuf]
          rw [if_pos hend]
          exact hrec
        · have hw : min size (b.length - st.bufferpos) = size := by omega
          have hwf1 : pbzxWF ⟨st.fh, some b, st.bufferpos + size⟩ := by
            intro b2 hb2
            simp at hb2
            subst hb2
            dsimp only
            omega
          have hfuel1 : st.fh.data.length - st.fh.pos + 0 +
              bflag ⟨st.fh, some b, st.bufferpos + size⟩ + 1 ≤ fuel := by
            have hbf1b : bflag ⟨st.fh, some b, st.bufferpos + size⟩ = 1 := by simp [bflag]
            rw [hbf1b]
            rw [hbf1] at hf
            omega
          have hrec := ih ⟨st.fh, some b, st.bufferpos + size⟩ 0 hwf1 (by simpa using hfuel1)
          rw [hw] at hend
          simp only [pbzx_seekF, if_neg hsz, hbuf]
          rw [hw, if_neg hend, Nat.sub_self]
          exact hrec

theorem readF_ok_len (dec : List Nat → Option (List Nat)) :
    ∀ (fuel : Nat) (st : PbzxState) (size : Nat) (d : List Nat) (st2 : PbzxState),
      pbzx_readF dec fuel st size = some (.ok (d, st2)) →
      d.length ≤ size ∧ (d.length < size →
        st2.buffer = none ∧ st2.fh.data.length ≤ st2.fh.pos) := by
  intro fuel
  induction fuel with
  | zero => intro st size d st2 h; simp [pbzx_readF] at h
  | succ fuel ih =>
    intro st size d st2 h
    by_cases hsz : size = 0
    · subst hsz
      simp [pbzx_readF] at h
      obtain ⟨hd, -⟩ := h
      subst hd
      exact ⟨le_refl _, by omega⟩
    · cases hbuf : st.buffer with
      | none =>
        simp only [pbzx_readF, if_neg hsz, hbuf] at h
        cases hnext : pbzx_next dec st.fh with
        | error e => rw [hnext] at h; simp at h
        | ok p =>
          obtain ⟨ob, fh2⟩ := p
          cases ob with
          | none =>
            rw [hnext] at h
            simp only [Option.some.injEq, Except.ok.injEq, Prod.mk.injEq] at h
            obtain ⟨hd, hst⟩ := h
            subst hd
            obtain ⟨hfh2, hlen⟩ := pbzx_next_none_inv dec st.fh fh2 hnext
            refine ⟨by simp, fun _ => ?_⟩
            rw [← hst, hfh2]
            exact ⟨rfl, hlen⟩
          | some b =>
            rw [hnext] at h
            exact ih _ _ _ _ h
      | some b =>
        simp only [pbzx_readF, if_neg hsz, hbuf] at h
        cases hrec : pbzx_readF dec fuel
            (if st.bufferpos + min size (b.length - st.bufferpos) = b.length
              then ⟨st.fh, none, 0⟩
              else ⟨st.fh, some b, st.bufferpos + min size (b.length - st.bufferpos)⟩)
            (size - min size (b.length - st.bufferpos)) with
        | none => rw [hrec] at h; simp at h
        | some r =>
          rw [hrec] at h
          cases r with
          | error e => simp at h
          | ok q =>
            obtain ⟨d1, st3⟩ := q
            simp only [Option.some.injEq, Except.ok.injEq, Prod.mk.injEq] at h
            obtain ⟨hd, hst⟩ := h
            subst hst
            obtain ⟨ih1, ih2⟩ := ih _ _ _ _ hrec
            have hcl : ((b.drop st.bufferpos).take
                (min size (b.length - st.bufferpos))).length =
                min (min size (b.length - st.bufferpos)) (b.length - st.bufferpos) := by
              simp only [List.length_take, List.length_drop, inf_eq_min]
            have hcl2 : ((b.drop st.bufferpos).take
                (min size (b.length - st.bufferpos))).length =
                min size (b.length - st.bufferpos) := by
              rw [hcl]
              omega
            constructor
            · rw [← hd]
              simp only [List.length_append, hcl2]
              omega
            · intro hlt
              rw [← hd] at hlt
              simp only [List.length_append, hcl2] at hlt
              exact ih2 (by omega)

theorem bflag_le_one (st : PbzxState) : bflag st ≤ 1 := by
  unfold bflag
  split <;> omega

theorem pbzx_read_refines (dec : List Nat → Option (List Nat)) (st : PbzxState)
    (L : List Nat) (size : Nat) (h : represents dec st L) :
    ∃ st2, pbzx_read dec st size = .ok (L.take size, st2) ∧
      represents dec st2 (L.drop size) ∧ st.fh.pos ≤ st2.fh.pos ∧
      st2.fh.data = st.fh.data := by
  have hbf := bflag_le_one st
  obtain ⟨st2, hrun, h2, h3, h4⟩ := readF_refines dec
    (st.fh.data.length - st.fh.pos + size + 2) st size L h (by omega)
  refine ⟨st2, ?_, h2, h3, h4⟩
  rw [pbzx_read, hrun]

theorem pbzx_seek_nat_refines (dec : List Nat → Option (List Nat)) (st : PbzxState)
    (L : List Nat) (n : Nat) (h : represents dec st L) :
    ∃ st2, pbzx_seek dec st (n : Int) 1 = .ok st2 ∧
      represents dec st2 (L.drop n) ∧ st.fh.pos ≤ st2.fh.pos ∧
      st2.fh.data = st.fh.data := by
  have hbf := bflag_le_one st
  have htn : (n : Int).toNat = n := Int.toNat_natCast n
  obtain ⟨st2, hrun, h2, h3, h4⟩ := seekF_refines dec
    (st.fh.data.length - st.fh.pos + (n : Int).toNat + 2) st n L h (by rw [htn]; omega)
  refine ⟨st2, ?_, h2, h3, h4⟩
  rw [pbzx_seek]
  rw [if_neg (by simp)]
  rw [htn] at hrun
  rw [htn, hrun]

theorem runOps_refines (dec : List Nat → Option (List Nat)) :
    ∀ (ops : List StreamOp) (st : PbzxState) (L : List Nat),
      represents dec st L →
      ∃ st2, runOps dec ops st = .ok (opsOuts ops L, st2) ∧
        represents dec st2 (opsRem ops L) := by
  intro ops
  induction ops with
  | nil => intro st L h; exact ⟨st, rfl, h⟩
  | cons op rest ih =>
    intro st L h
    cases op with
    | read n =>
      obtain ⟨st1, hrun, hrep1, -, -⟩ := pbzx_read_refines dec st L n h
      obtain ⟨st2, hrun2, hrep2⟩ := ih st1 (L.drop n) hrep1
      refine ⟨st2, ?_, hrep2⟩
      simp only [runOps, hrun, hrun2, opsOuts]
    | seek n =>
      obtain ⟨st1, hrun, hrep1, -, -⟩ := pbzx_seek_nat_refines dec st L n h
      obtain ⟨st2, hrun2, hrep2⟩ := ih st1 (L.drop n) hrep1
      refine ⟨st2, ?_, hrep2⟩
      simp only [runOps, hrun, hrun2, opsOuts]

/-! Helper lemmas about the walker over the in-memory stream. -/


theorem simpleOps_read (s : SimpleStream) (n : Nat) :
    simpleOps.read s n = .ok ((s.data.drop s.pos).take n,
      ⟨s.data, s.pos + ((s.data.drop s.pos).take n).length⟩) := rfl

theorem simpleOps_seek (s : SimpleStream) (size whence : Int) :
    simpleOps.seek s size whence = s.seekFwd size whence := rfl

theorem savedataF_consumes :
    ∀ (fuel : Nat) (s : SimpleStream) (size : Nat) (acc : List Nat),
      size ≤ s.data.length - s.pos → size < fuel →
      savedataF simpleOps fuel s size acc =
        some (.ok (acc ++ (s.data.drop s.pos).take size, ⟨s.data, s.pos + size⟩)) := by
  intro fuel
  induction fuel with
  | zero => intro s size acc _ hf; omega
  | succ fuel ih =>
    intro s size acc hle hf
    by_cases hsz : size = 0
    · subst hsz
      simp only [savedataF, if_pos rfl]
      simp
    · have hwmin : min 0x100000 size ≤ size := Nat.min_le_right _ _
      have hwpos : 1 ≤ min 0x100000 size := by omega
      have hrdlen : ((s.data.drop s.pos).take (min 0x100000 size)).length =
          min 0x100000 size := by
        simp only [List.length_take, List.length_drop, inf_eq_min]
        omega
      simp only [savedataF, if_neg hsz, simpleOps_read]
      rw [hrdlen]
      rw [if_neg (by omega)]
      have hrec := ih ⟨s.data, s.pos + min 0x100000 size⟩ (size - min 0x100000 size)
        (acc ++ (s.data.drop s.pos).take (min 0x100000 size))
        (by dsimp only; omega) (by omega)
      rw [hrec]
      dsimp only
      have harith : s.pos + min 0x100000 size + (size - min 0x100000 size) = s.pos + size := by
        omega
      rw [harith]
      have hdd : (s.data.drop (s.pos + min 0x100000 size)) =
          ((s.data.drop s.pos).drop (min 0x100000 size)) := by
        rw [List.drop_drop]
      rw [hdd]
      rw [List.append_assoc]
      have hta : (s.data.drop s.pos).take (min 0x100000 size) ++
          ((s.data.drop s.pos).drop (min 0x100000 size)).take (size - min 0x100000 size) =
          (s.data.drop s.pos).take size := by
        rw [← listTakeAdd]
        congr 1
        omega
      rw [hta]

theorem savedata_consumes (s : SimpleStream) (size : Nat)
    (h : size ≤ s.data.length - s.pos) :
    savedata simpleOps s size =
      .ok ((s.data.drop s.pos).take size, ⟨s.data, s.pos + size⟩) := by
  rw [savedata, savedataF_consumes (size + 1) s size [] h (by omega)]
  simp

theorem seekFwd_nat (s : SimpleStream) (n : Nat) (h : s.pos + n ≤ s.data.length) :
    s.seekFwd (n : Int) 1 = .ok ⟨s.data, s.pos + n⟩ := by
  rw [SimpleStream.seekFwd]
  rw [if_neg (by push_neg; exact ⟨rfl, Int.natCast_nonneg n⟩)]
  have htn : (n : Int).toNat = n := Int.toNat_natCast n
  rw [htn]
  have hmin : min (s.pos + n) s.data.length = s.pos + n := by omega
  rw [hmin]

theorem dispatch_consumes (args : Args) (hdr : Header) (s : SimpleStream)
    (h : s.pos + hdr.filesize ≤ s.data.length) (evs : List Event) (suf : List Nat)
    (s2 : SimpleStream) (hd : dispatch simpleOps args hdr s = .ok (evs, suf, s2)) :
    s2.pos = s.pos + hdr.filesize ∧ s2.data = s.data := by
  have hrdlen : ((s.data.drop s.pos).take hdr.filesize).length = hdr.filesize := by
    simp only [List.length_take, List.length_drop, inf_eq_min]
    omega
  by_cases ht3 : hdr.type = 3
  · simp only [dispatch, if_pos ht3, simpleOps_read] at hd
    rw [hrdlen] at hd
    cases hdec : utf8Decode ((s.data.drop s.pos).take hdr.filesize) with
    | none => rw [hdec] at hd; simp at hd
    | some tgt =>
      rw [hdec] at hd
      cases ho : args.output with
      | some dout =>
        rw [ho] at hd
        simp only [Except.ok.injEq, Prod.mk.injEq] at hd
        obtain ⟨-, -, hs2⟩ := hd
        subst hs2
        exact ⟨rfl, rfl⟩
      | none =>
        rw [ho] at hd
        simp only [Except.ok.injEq, Prod.mk.injEq] at hd
        obtain ⟨-, -, hs2⟩ := hd
        subst hs2
        exact ⟨rfl, rfl⟩
  · simp only [dispatch, if_neg ht3] at hd
    cases ho : args.output with
    | some dout =>
      rw [ho] at hd
      by_cases ht1 : hdr.type = 1
      · simp only [if_pos ht1] at hd
        rw [savedata_consumes s hdr.filesize (by omega)] at hd
        simp only [Except.ok.injEq, Prod.mk.injEq] at hd
        obtain ⟨-, -, hs2⟩ := hd
        subst hs2
        exact ⟨rfl, rfl⟩
      · simp only [if_neg ht1, simpleOps_seek] at hd
        rw [seekFwd_nat s hdr.filesize h] at hd
        simp only [Except.ok.injEq, Prod.mk.injEq] at hd
        obtain ⟨-, -, hs2⟩ := hd
        subst hs2
        exact ⟨rfl, rfl⟩
    | none =>
      rw [ho] at hd
      simp only [simpleOps_seek] at hd
      rw [seekFwd_nat s hdr.filesize h] at hd
      simp only [Except.ok.injEq, Prod.mk.injEq] at hd
      obtain ⟨-, -, hs2⟩ := hd
      subst hs2
      exact ⟨rfl, rfl⟩

theorem readheader_short (s : SimpleStream)
    (h0 : 0 < s.data.length - s.pos) (h30 : s.data.length - s.pos < 30) :
    readheader simpleOps s = .error .formatError := by
  simp only [readheader, simpleOps_read]
  have hlen : ((s.data.drop s.pos).take 30).length = s.data.length - s.pos := by
    simp only [List.length_take, List.length_drop, inf_eq_min]
    omega
  rw [hlen]
  rw [if_neg (by omega), if_pos (by omega)]

theorem readheader_badname (s : SimpleStream)
    (h30 : 30 ≤ s.data.length - s.pos)
    (hdec : utf8Decode ((s.data.drop (s.pos + 30)).take
        (beNat ((((s.data.drop s.pos).take 30).drop 22).take 2))) = none) :
    readheader simpleOps s = .error .formatError := by
  simp only [readheader, simpleOps_read]
  have hlen : ((s.data.drop s.pos).take 30).length = 30 := by
    simp only [List.length_take, List.length_drop, inf_eq_min]
    omega
  rw [hlen]
  rw [if_neg (by omega), if_neg (by omega)]
  rw [hdec]

theorem dispatch_unk1 {σ : Type} (ops : StreamOps σ) (args : Args) (hdr : Header)
    (u : Nat) (s : σ) :
    dispatch ops args { hdr with unk1 := u } s = dispatch ops args hdr s := by
  cases hdr
  rfl

/-! Claim theorems. -/

/-- Claim C1: an archive containing an entry of unrecognized kind (here 4) is
claimed to be tallied under an "other" bucket with the walk continuing; the
code instead skips the payload but then crashes with a KeyError at
count[hdr.type] += 1, because the tally dict only has the keys 1, 2 and 3.
This theorem evaluates the walk at the failing input. -/
theorem c1_unknown_kind_keyerror :
    runPayload ⟨none, false⟩ ⟨sampleK4, 0⟩ = .error .keyError := by rfl

/-- Claim C2 counterexample: a header declaring a 2-byte name followed by only
one name byte is claimed to be a fatal FormatError; readheader instead
succeeds, silently truncating the name to "a", because the length of the name
read is never checked. -/
theorem c2_short_name_not_detected :
    readheader simpleOps ⟨sampleShortName, 0⟩ =
      .ok (some ⟨16, 1, 0, 0, 0, 2, 0, 0, 0, [97]⟩, ⟨sampleShortName, 31⟩) := by rfl

/-- Claim C2 as amended: a non-zero header read of fewer than 30 bytes is a
fatal FormatError, and so is a name that does not decode as UTF-8; but a short
name read as such is not detected (see the counterexample). -/
theorem c2_truncation_errors :
    (∀ s : SimpleStream, 0 < s.data.length - s.pos → s.data.length - s.pos < 30 →
      readheader simpleOps s = .error .formatError) ∧
    (∀ s : SimpleStream, 30 ≤ s.data.length - s.pos →
      utf8Decode ((s.data.drop (s.pos + 30)).take
        (beNat ((((s.data.drop s.pos).take 30).drop 22).take 2))) = none →
      readheader simpleOps s = .error .formatError) :=
  ⟨readheader_short, readheader_badname⟩

/-- Claim C2 witness: the amended theorem applied to a 5-byte truncated header
and to a header whose 1-byte name is the invalid UTF-8 byte 255. -/
theorem c2_truncation_errors_witness :
    readheader simpleOps ⟨[16, 1, 0, 0, 0], 0⟩ = .error .formatError ∧
    readheader simpleOps ⟨sampleBadName, 0⟩ = .error .formatError :=
  ⟨c2_truncation_errors.1 ⟨[16, 1, 0, 0, 0], 0⟩ (by decide) (by decide),
   c2_truncation_errors.2 ⟨sampleBadName, 0⟩ (by decide) (by rfl)⟩

/-- Claim C3 counterexample: a chunk header declaring 4 compressed bytes with
only 2 available is claimed to raise FormatError; the code never checks the
read length and instead hands the short data to the codec, which (like lzma on
truncated input) rejects it, producing a DecompressionError. -/
theorem c3_truncated_chunk_wrong_error :
    pbzx_next rejectDec ⟨rawTrunc, 0⟩ = .error .decompressionError := by rfl

/-- Claim C3 as amended: when the declared compressed size exceeds the bytes
remaining after the 16-byte chunk header, the short data is passed to the
codec as is: the result is a DecompressionError exactly when the codec rejects
it, and silently returned data when the codec accepts it; no FormatError
occurs on this path. -/
theorem c3_short_compressed_data (dec : List Nat → Option (List Nat)) (fh : FH)
    (h16 : fh.pos + 16 ≤ fh.data.length)
    (hshort : fh.data.length - (fh.pos + 16) <
      beNat ((((fh.data.drop fh.pos).take 16).drop 8).take 8)) :
    pbzx_next dec fh =
      (match dec (fh.data.drop (fh.pos + 16)) with
       | none => .error .decompressionError
       | some d => .ok (some d, ⟨fh.data, fh.data.length⟩)) ∧
    pbzx_next dec fh ≠ .error .formatError := by
  have hl16 : ((fh.data.drop fh.pos).take 16).length = 16 := by
    simp only [List.length_take, List.length_drop, inf_eq_min]
    omega
  have hmain : pbzx_next dec fh =
      (match dec (fh.data.drop (fh.pos + 16)) with
       | none => .error .decompressionError
       | some d => .ok (some d, ⟨fh.data, fh.data.length⟩)) := by
    simp only [pbzx_next, FH.read]
    rw [if_neg (by rw [hl16]; omega), if_neg (by rw [hl16]; omega)]
    rw [hl16]
    have hxz : (fh.data.drop (fh.pos + 16)).take
        (beNat ((((fh.data.drop fh.pos).take 16).drop 8).take 8)) =
        fh.data.drop (fh.pos + 16) := by
      apply List.take_of_length_le
      simp only [List.length_drop]
      omega
    have harg : List.take (beNat (List.take 8 (List.drop 8 (List.take 16
        (List.drop fh.pos fh.data))))) (List.drop (fh.pos + 16) fh.data) =
        fh.data.drop (fh.pos + 16) := hxz
    rw [harg]
    cases hdec : dec (fh.data.drop (fh.pos + 16)) with
    | none => rfl
    | some d =>
      have hplen : fh.pos + 16 + (fh.data.drop (fh.pos + 16)).length =
          fh.data.length := by
        simp only [List.length_drop]
        omega
      rw [hplen]
  refine ⟨hmain, ?_⟩
  rw [hmain]
  cases hdec : dec (fh.data.drop (fh.pos + 16)) <;> simp

/-- Claim C3 witness: the amended theorem applied to the truncated raw input
and the rejecting codec. -/
theorem c3_short_compressed_data_witness :
    (pbzx_next rejectDec (⟨rawTrunc, 0⟩ : FH) =
      (match rejectDec ((⟨rawTrunc, 0⟩ : FH).data.drop (0 + 16)) with
       | none => .error .decompressionError
       | some d => .ok (some d, ⟨(⟨rawTrunc, 0⟩ : FH).data,
           (⟨rawTrunc, 0⟩ : FH).data.length⟩))) ∧
    pbzx_next rejectDec (⟨rawTrunc, 0⟩ : FH) ≠ .error .formatError :=
  c3_short_compressed_data rejectDec ⟨rawTrunc, 0⟩ (by decide) (by decide)

/-- Claim C4: on every dispatch path of the walk loop (store via savedata,
symlink read and decode, or discard via seek) that completes, exactly
payload-size bytes are consumed from the stream after the header and name,
provided the stream holds at least that many bytes. -/
theorem c4_payload_consumed_exactly (args : Args) (hdr : Header) (s : SimpleStream)
    (h : s.pos + hdr.filesize ≤ s.data.length) (evs : List Event) (suf : List Nat)
    (s2 : SimpleStream) (hd : dispatch simpleOps args hdr s = .ok (evs, suf, s2)) :
    s2.pos = s.pos + hdr.filesize ∧ s2.data = s.data :=
  dispatch_consumes args hdr s h evs suf s2 hd

/-- Claim C4 witness: a directory entry of payload size 3 is discarded by the
seek path, advancing the position from 0 to exactly 3. -/
theorem c4_payload_consumed_exactly_witness :
    (⟨[5, 6, 7, 8], 3⟩ : SimpleStream).pos =
      (⟨[5, 6, 7, 8], 0⟩ : SimpleStream).pos +
        (Header.mk 16 2 3 0 0 0 0 0 0 []).filesize ∧
    (⟨[5, 6, 7, 8], 3⟩ : SimpleStream).data = (⟨[5, 6, 7, 8], 0⟩ : SimpleStream).data :=
  c4_payload_consumed_exactly ⟨none, false⟩ ⟨16, 2, 3, 0, 0, 0, 0, 0, 0, []⟩
    ⟨[5, 6, 7, 8], 0⟩ (by decide) [] [] ⟨[5, 6, 7, 8], 3⟩ (by rfl)

/-- Claim C5: on a state representing logical content L, read(n) returns
exactly the first n bytes of L (hence at most n bytes), the returned state
represents the rest, the raw position never moves backwards, and the traced
variant fetches chunks at strictly increasing raw offsets at or beyond the
current position, so no chunk is ever decompressed twice; moreover, for every
read that returns successfully, a result shorter than requested happens only
with the buffer gone and the raw input exhausted. -/
theorem c5_read_contract (dec : List Nat → Option (List Nat)) (st : PbzxState)
    (L : List Nat) (n : Nat) (h : represents dec st L) :
    (∃ st2, pbzx_read dec st n = .ok (L.take n, st2) ∧ (L.take n).length ≤ n ∧
      ((L.take n).length < n → represents dec st2 []) ∧ st.fh.pos ≤ st2.fh.pos) ∧
    (∃ st2 tr, pbzx_readTF dec (st.fh.data.length - st.fh.pos + n + 2) st n =
        some (.ok (L.take n, st2, tr)) ∧
      List.Chain' (fun x y => x < y) tr ∧ (∀ o, o ∈ tr → st.fh.pos ≤ o)) ∧
    (∀ (m : Nat) (d : List Nat) (st2 : PbzxState), pbzx_read dec st m = .ok (d, st2) →
      d.length ≤ m ∧ (d.length < m → st2.buffer = none ∧
        st2.fh.data.length ≤ st2.fh.pos)) := by
  refine ⟨?_, ?_, ?_⟩
  · obtain ⟨st2, h1, h2, h3, -⟩ := pbzx_read_refines dec st L n h
    refine ⟨st2, h1, ?_, ?_, h3⟩
    · simp only [List.length_take, inf_eq_min]
      omega
    · intro hshort
      simp only [List.length_take, inf_eq_min] at hshort
      have hnil : L.drop n = [] := List.drop_of_length_le (by omega)
      rw [hnil] at h2
      exact h2
  · have hbf := bflag_le_one st
    obtain ⟨st2, tr, h1, -, -, -, h5, h6⟩ := readTF_refines dec
      (st.fh.data.length - st.fh.pos + n + 2) st n L h (by omega)
    exact ⟨st2, tr, h1, h5, h6⟩
  · intro m d st2 hm
    have hbf := bflag_le_one st
    cases hF : pbzx_readF dec (st.fh.data.length - st.fh.pos + m + 2) st m with
    | none => rw [pbzx_read, hF] at hm; simp at hm
    | some r =>
      rw [pbzx_read, hF] at hm
      subst hm
      exact readF_ok_len dec _ st m d st2 hF

/-- Claim C5 witness: the contract applied to the single-chunk raw input
representing the content 1,2,3,4,5, with n = 3. -/
theorem c5_read_contract_witness :
    (∃ st2, pbzx_read toyDec ⟨⟨raw1, 0⟩, none, 0⟩ 3 =
        .ok ([1, 2, 3, 4, 5].take 3, st2) ∧ ([1, 2, 3, 4, 5].take 3).length ≤ 3 ∧
      (([1, 2, 3, 4, 5].take 3).length < 3 → represents toyDec st2 []) ∧
      (⟨⟨raw1, 0⟩, none, 0⟩ : PbzxState).fh.pos ≤ st2.fh.pos) ∧
    (∃ st2 tr, pbzx_readTF toyDec
        ((⟨⟨raw1, 0⟩, none, 0⟩ : PbzxState).fh.data.length -
          (⟨⟨raw1, 0⟩, none, 0⟩ : PbzxState).fh.pos + 3 + 2) ⟨⟨raw1, 0⟩, none, 0⟩ 3 =
        some (.ok ([1, 2, 3, 4, 5].take 3, st2, tr)) ∧
      List.Chain' (fun x y => x < y) tr ∧
      (∀ o, o ∈ tr → (⟨⟨raw1, 0⟩, none, 0⟩ : PbzxState).fh.pos ≤ o)) ∧
    (∀ (m : Nat) (d : List Nat) (st2 : PbzxState),
      pbzx_read toyDec ⟨⟨raw1, 0⟩, none, 0⟩ m = .ok (d, st2) →
      d.length ≤ m ∧ (d.length < m → st2.buffer = none ∧
        st2.fh.data.length ≤ st2.fh.pos)) :=
  c5_read_contract toyDec ⟨⟨raw1, 0⟩, none, 0⟩ [1, 2, 3, 4, 5] 3 (by exact rfl)

/-- Claim C6: two decompressor states presenting the same logical content —
regardless of how that content is split into chunks and of the codec — produce
identical outputs on every sequence of read and seek operations: both runs
succeed and return exactly the outputs determined by the flat content alone,
so chunk boundaries are invisible to callers. -/
theorem c6_chunk_boundaries_invisible (dec1 dec2 : List Nat → Option (List Nat))
    (st1 st2 : PbzxState) (L : List Nat) (ops : List StreamOp)
    (h1 : represents dec1 st1 L) (h2 : represents dec2 st2 L) :
    Except.map Prod.fst (runOps dec1 ops st1) = .ok (opsOuts ops L) ∧
    Except.map Prod.fst (runOps dec2 ops st2) = .ok (opsOuts ops L) := by
  obtain ⟨s1b, hr1, -⟩ := runOps_refines dec1 ops st1 L h1
  obtain ⟨s2b, hr2, -⟩ := runOps_refines dec2 ops st2 L h2
  rw [hr1, hr2]
  exact ⟨rfl, rfl⟩

/-- Claim C6 witness: the content 1,2,3,4,5 stored as one chunk (raw1) and as
two chunks (raw2) gives the same outputs for the operation sequence
read 2, seek 1, read 9. -/
theorem c6_chunk_boundaries_invisible_witness :
    Except.map Prod.fst (runOps toyDec [StreamOp.read 2, StreamOp.seek 1, StreamOp.read 9]
        ⟨⟨raw1, 0⟩, none, 0⟩) =
      .ok (opsOuts [StreamOp.read 2, StreamOp.seek 1, StreamOp.read 9] [1, 2, 3, 4, 5]) ∧
    Except.map Prod.fst (runOps toyDec [StreamOp.read 2, StreamOp.seek 1, StreamOp.read 9]
        ⟨⟨raw2, 0⟩, none, 0⟩) =
      .ok (opsOuts [StreamOp.read 2, StreamOp.seek 1, StreamOp.read 9] [1, 2, 3, 4, 5]) :=
  c6_chunk_boundaries_invisible toyDec toyDec ⟨⟨raw1, 0⟩, none, 0⟩ ⟨⟨raw2, 0⟩, none, 0⟩
    [1, 2, 3, 4, 5] [StreamOp.read 2, StreamOp.seek 1, StreamOp.read 9]
    (by exact rfl) (by exact rfl)

/-- Claim C7 counterexample: a symlink entry is claimed always to invoke the
create-symlink sink; with no output directory configured the walk succeeds,
tallies the link, but emits no link event at all, because createlink is called
only under args.output. -/
theorem c7_no_output_no_link :
    runPayload ⟨none, false⟩ ⟨sampleSymlink, 0⟩ = .ok ([], (0, 0, 1)) := by rfl

/-- Claim C7 as amended: when an output directory is configured and the
payload decodes as UTF-8, a symlink entry reads exactly payload-size bytes,
decodes them, and produces exactly one create-symlink event carrying that
target text — never a store event. -/
theorem c7_symlink_target (d : List Nat) (lst : Bool) (hdr : Header) (s : SimpleStream)
    (tgt : List Nat) (ht : hdr.type = 3) (h : s.pos + hdr.filesize ≤ s.data.length)
    (hdec : utf8Decode ((s.data.drop s.pos).take hdr.filesize) = some tgt) :
    dispatch simpleOps ⟨some d, lst⟩ hdr s =
      .ok ([Event.link (d ++ [47] ++ hdr.name) tgt], [32, 45, 62, 32] ++ tgt,
        ⟨s.data, s.pos + hdr.filesize⟩) := by
  have hrdlen : ((s.data.drop s.pos).take hdr.filesize).length = hdr.filesize := by
    simp only [List.length_take, List.length_drop, inf_eq_min]
    omega
  simp only [dispatch, if_pos ht, simpleOps_read]
  rw [hrdlen, hdec]

/-- Claim C7 witness: the symlink payload "a/b/c" of size 5 yields a link
event whose target text is exactly "a/b/c". -/
theorem c7_symlink_target_witness :
    dispatch simpleOps ⟨some [111], false⟩ ⟨16, 3, 5, 0, 0, 1, 0, 0, 0, [108]⟩
        ⟨[97, 47, 98, 47, 99], 0⟩ =
      .ok ([Event.link ([111] ++ [47] ++ [108]) [97, 47, 98, 47, 99]],
        [32, 45, 62, 32] ++ [97, 47, 98, 47, 99], ⟨[97, 47, 98, 47, 99], 0 + 5⟩) :=
  c7_symlink_target [111] false ⟨16, 3, 5, 0, 0, 1, 0, 0, 0, [108]⟩
    ⟨[97, 47, 98, 47, 99], 0⟩ [97, 47, 98, 47, 99] (by rfl) (by decide) (by rfl)

/-- Claim C8: seek with whence different from 1 or a negative size fails with
the unsupported-operation error; a forward seek of n on a state representing
content L succeeds and leaves the state representing L without its first n
bytes — the position advances by exactly n, stopping early only when the
stream ends. -/
theorem c8_seek_contract :
    (∀ (dec : List Nat → Option (List Nat)) (st : PbzxState) (size whence : Int),
      whence ≠ 1 ∨ size < 0 →
      pbzx_seek dec st size whence = .error .unsupportedOperation) ∧
    (∀ (dec : List Nat → Option (List Nat)) (st : PbzxState) (L : List Nat) (n : Nat),
      represents dec st L → ∃ st2, pbzx_seek dec st (n : Int) 1 = .ok st2 ∧
        represents dec st2 (L.drop n) ∧ st2.fh.data = st.fh.data) := by
  constructor
  · intro dec st size whence hw
    rw [pbzx_seek, if_pos hw]
  · intro dec st L n h
    obtain ⟨st2, h1, h2, -, h4⟩ := pbzx_seek_nat_refines dec st L n h
    exact ⟨st2, h1, h2, h4⟩

/-- Claim C8 witness: a seek with whence 0 fails with the unsupported
operation error, and a forward seek of 2 on the single-chunk stream leaves a
state representing 3,4,5. -/
theorem c8_seek_contract_witness :
    pbzx_seek toyDec ⟨⟨raw1, 0⟩, none, 0⟩ 5 0 = .error .unsupportedOperation ∧
    (∃ st2, pbzx_seek toyDec ⟨⟨raw1, 0⟩, none, 0⟩ ((2 : Nat) : Int) 1 = .ok st2 ∧
      represents toyDec st2 ([1, 2, 3, 4, 5].drop 2) ∧
      st2.fh.data = (⟨⟨raw1, 0⟩, none, 0⟩ : PbzxState).fh.data) :=
  ⟨c8_seek_contract.1 toyDec ⟨⟨raw1, 0⟩, none, 0⟩ 5 0 (by decide),
   c8_seek_contract.2 toyDec ⟨⟨raw1, 0⟩, none, 0⟩ [1, 2, 3, 4, 5] 2 (by exact rfl)⟩

/-- Claim C9 counterexample: a header with reserved marker 0x11 is claimed
always to produce a warning; without the listing flag the entry is processed
and tallied with no warning event at all, because the note is printed only
inside the listing branch. -/
theorem c9_no_list_no_warning :
    runPayload ⟨none, false⟩ ⟨sampleDirWarn, 0⟩ = .ok ([], (0, 1, 0)) := by rfl

/-- Claim C9 as amended: a reserved-marker mismatch is never fatal and never
changes how the entry is dispatched or tallied: processing an entry whose
marker differs from 0x10 gives exactly the result of processing the same
entry with the expected marker, plus one warning note appended when (and only
when) listing is enabled. -/
theorem c9_marker_mismatch_nonfatal {σ : Type} (ops : StreamOps σ) (args : Args)
    (hdr : Header) (s : σ) (cnt : Nat × Nat × Nat) (h : hdr.unk1 ≠ 0x10) :
    stepEntry ops args hdr s cnt =
      Except.map (fun r => (r.1 ++ (if args.list then [Event.note hdr.unk1] else []), r.2))
        (stepEntry ops args { hdr with unk1 := 0x10 } s cnt) := by
  cases hdr with
  | mk u t fs ts at2 nl ui gi fm nm =>
    simp only [stepEntry]
    rw [dispatch_unk1 ops args ⟨u, t, fs, ts, at2, nl, ui, gi, fm, nm⟩ 0x10 s]
    cases hdisp : dispatch ops args ⟨u, t, fs, ts, at2, nl, ui, gi, fm, nm⟩ s with
    | error e => rfl
    | ok r =>
      obtain ⟨sinkEvs, suffix, s2⟩ := r
      dsimp only
      cases ht : tallyAdd cnt t with
      | none => rfl
      | some cnt2 =>
        dsimp only
        have hu : u ≠ 16 := h
        by_cases hl : args.list
        · simp [Except.map, hl, hu, List.append_assoc]
        · simp [Except.map, hl]

/-- Claim C9 witness: the amended theorem applied to a directory entry with
marker 0x11 under listing mode. -/
theorem c9_marker_mismatch_nonfatal_witness :
    stepEntry simpleOps ⟨none, true⟩ ⟨17, 2, 0, 0, 0, 0, 0, 0, 0, []⟩
        (⟨[], 0⟩ : SimpleStream) (0, 0, 0) =
      Except.map (fun r => (r.1 ++
          (if (⟨none, true⟩ : Args).list
            then [Event.note (Header.mk 17 2 0 0 0 0 0 0 0 []).unk1] else []), r.2))
        (stepEntry simpleOps ⟨none, true⟩
          { Header.mk 17 2 0 0 0 0 0 0 0 [] with unk1 := 0x10 }
          (⟨[], 0⟩ : SimpleStream) (0, 0, 0)) :=
  c9_marker_mismatch_nonfatal simpleOps ⟨none, true⟩ ⟨17, 2, 0, 0, 0, 0, 0, 0, 0, []⟩
    (⟨[], 0⟩ : SimpleStream) (0, 0, 0) (by decide)

/-- Claim C10: for every well-formed decompressor state over a finite raw
input, the read and seek loops terminate: with fuel equal to the remaining raw
bytes plus the requested count plus two, the fuelled loops always return a
result.  Empty decompressed chunks only discard the buffer and advance
through the raw input, so they cannot make the loops diverge. -/
theorem c10_read_seek_terminate (dec : List Nat → Option (List Nat)) (st : PbzxState)
    (size : Nat) (h : pbzxWF st) :
    (pbzx_readF dec (st.fh.data.length - st.fh.pos + size + 2) st size).isSome = true ∧
    (pbzx_seekF dec (st.fh.data.length - st.fh.pos + size + 2) st size).isSome = true := by
  have hbf := bflag_le_one st
  exact ⟨readF_total dec _ st size h (by omega), seekF_total dec _ st size h (by omega)⟩

/-- Claim C10 witness: termination on a raw input whose first chunk
decompresses to the empty buffer. -/
theorem c10_read_seek_terminate_witness :
    (pbzx_readF toyDec ((⟨⟨rawEmpty, 0⟩, none, 0⟩ : PbzxState).fh.data.length -
        (⟨⟨rawEmpty, 0⟩, none, 0⟩ : PbzxState).fh.pos + 2 + 2)
      ⟨⟨rawEmpty, 0⟩, none, 0⟩ 2).isSome = true ∧
    (pbzx_seekF toyDec ((⟨⟨rawEmpty, 0⟩, none, 0⟩ : PbzxState).fh.data.length -
        (⟨⟨rawEmpty, 0⟩, none, 0⟩ : PbzxState).fh.pos + 2 + 2)
      ⟨⟨rawEmpty, 0⟩, none, 0⟩ 2).isSome = true :=
  c10_read_seek_terminate toyDec ⟨⟨rawEmpty, 0⟩, none, 0⟩ 2
    (fun b hb => by simp at hb)
